import Mathlib

/-!
# Potassium declaration extractor (`out/extension.js`)

A shallow embedding of `loadDefinitions` and `reloadCompletions`.

JavaScript strings are modelled as lists of characters.  The text handed to the
scanner comes from a UTF-8 decode, so it is a well-formed sequence of Unicode
scalar values; every marker, separator and character class used by the scanner
lies in the Basic Multilingual Plane, so working on scalar values instead of
UTF-16 code units changes nothing.
-/

set_option autoImplicit false

namespace Potassium

/-- JavaScript string, as the list of its characters. -/
abbrev Str := List Char

/-! ## String primitives of the host language -/

/-- White space in the sense of `String.prototype.trim` and of the regular
expression class `\s`: the ECMAScript `WhiteSpace` and `LineTerminator`
code points. -/
def isWs (c : Char) : Bool :=
  let n := c.toNat
  n == 0x09 || n == 0x0A || n == 0x0B || n == 0x0C || n == 0x0D || n == 0x20 ||
  n == 0xA0 || n == 0x1680 || (0x2000 ≤ n && n ≤ 0x200A) || n == 0x2028 ||
  n == 0x2029 || n == 0x202F || n == 0x205F || n == 0x3000 || n == 0xFEFF

/-- Letters and digits: the ranges `a-z`, `A-Z` and `0-9`. -/
def isAlnum (c : Char) : Bool :=
  let n := c.toNat
  (97 ≤ n && n ≤ 122) || (65 ≤ n && n ≤ 90) || (48 ≤ n && n ≤ 57)

/-- Letters, digits and the underscore. -/
def isWordChar (c : Char) : Bool :=
  isAlnum c || c == '_'

/-- The character class `[.:]` used to split a qualified name. -/
def isDotColon (c : Char) : Bool :=
  c == '.' || c == ':'

/-- The character class `[a-zA-Z0-9_.:]` of the function pattern. -/
def isIdentChar (c : Char) : Bool :=
  isWordChar c || isDotColon c

/-- Removal of trailing white space. -/
def trimEnd : Str → Str
  | [] => []
  | c :: cs =>
    match trimEnd cs with
    | [] => if isWs c then [] else [c]
    | r :: rs => c :: r :: rs

/-- Removal of leading white space. -/
def trimStart (s : Str) : Str :=
  s.dropWhile isWs

/-- `String.prototype.trim`. -/
def trim (s : Str) : Str :=
  trimEnd (trimStart s)

/-- `String.prototype.startsWith`. -/
def startsWith (s pat : Str) : Bool :=
  pat.isPrefixOf s

/-- `String.prototype.includes`: some suffix of `s` starts with `pat`. -/
def includes (s pat : Str) : Bool :=
  match s with
  | [] => startsWith [] pat
  | c :: cs => startsWith (c :: cs) pat || includes cs pat

/-- Put a character in front of the first piece of a split. -/
def consHead (c : Char) : List Str → List Str
  | [] => [[c]]
  | p :: ps => (c :: p) :: ps

/-- Worker of `split`: `skip` counts the characters of a separator occurrence
that are still to be passed over. -/
def splitAux (sep : Str) : Str → Nat → List Str
  | [], _ => [[]]
  | _ :: cs, skip + 1 => splitAux sep cs skip
  | c :: cs, 0 =>
    if startsWith (c :: cs) sep then [] :: splitAux sep cs (sep.length - 1)
    else consHead c (splitAux sep cs 0)

/-- `String.prototype.split` with a non-empty string separator: the pieces
between the leftmost non-overlapping occurrences of `sep`. -/
def split (s sep : Str) : List Str :=
  splitAux sep s 0

/-- `String.prototype.split` with the regular expression `/[.:]/`. -/
def splitDotColon : Str → List Str
  | [] => [[]]
  | c :: cs =>
    if isDotColon c then [] :: splitDotColon cs
    else consHead c (splitDotColon cs)

/-! ## The regular expression `/function\s+([a-zA-Z0-9_.:]+)/` -/

/-- The markers and keywords of the scanner. -/
def kwFunction : Str := "function".toList

/-- The group `([a-zA-Z0-9_.:]+)` followed by the end of the pattern: greedy,
so the longest run of class characters, which must not be empty. -/
def matchIdentPlus (s : Str) : Option Str :=
  match s.takeWhile isIdentChar with
  | [] => none
  | c :: cs => some (c :: cs)

/-- Greedy `\s*` with backtracking, followed by the capture group. -/
def matchWsStar : Str → Option Str
  | [] => matchIdentPlus []
  | c :: cs =>
    if isWs c then
      match matchWsStar cs with
      | some r => some r
      | none => matchIdentPlus (c :: cs)
    else matchIdentPlus (c :: cs)

/-- Greedy `\s+` followed by the capture group. -/
def matchWsPlus : Str → Option Str
  | [] => none
  | c :: cs => if isWs c then matchWsStar cs else none

/-- The whole pattern anchored at the start of `s`; the result is capture
group 1. -/
def matchAt (s : Str) : Option Str :=
  if startsWith s kwFunction then matchWsPlus (s.drop kwFunction.length) else none

/-- Result of `line.match(/function\s+([a-zA-Z0-9_.:]+)/)`: capture group 1 of
the leftmost match, `none` when the pattern matches nowhere. -/
def funcMatch : Str → Option Str
  | [] => matchAt []
  | c :: cs =>
    match matchAt (c :: cs) with
    | some r => some r
    | none => funcMatch cs

/-! ## Records -/

/-- The three values of `vscode.CompletionItemKind` used by the extension. -/
inductive CompletionItemKind where
  | Function
  | Class
  | Variable
  deriving DecidableEq, Repr

/-- Record pushed onto `items`.  `documentation` is `none` when the object
literal has no such property (classes, variables) and `some currentDoc`
for functions, where `currentDoc` may be the empty string. -/
structure Item where
  name : Str
  kind : CompletionItemKind
  detail : Str
  documentation : Option Str
  deriving DecidableEq, Repr

/-! ## The scanner -/

def metaMarker : Str := "---@meta".toList
def docMarker : Str := "---".toList
def annotMarker : Str := "---@".toList
def classMarker : Str := "---@class".toList
def commentMarker : Str := "--".toList
def apiDetail : Str := "Potassium API: ".toList
def typeDetail : Str := "Potassium Type: ".toList
def globalDetail : Str := "Potassium Global".toList

/-- Display name of a function: the last piece of the split on `.` and `:`
when the full name contains one of them, the full name otherwise. -/
def displayName (fullName : Str) : Str :=
  if includes fullName [':'] || includes fullName ['.'] then
    (splitDotColon fullName).getLastD []
  else fullName

/-- Value of `line.split("---@class")[1]?.trim().split(" ")[0]`; `none` stands
for `undefined`. -/
def classNameOf (line : Str) : Option Str :=
  ((split line classMarker).get? 1).map fun s => (split (trim s) [' ']).headD []

/-- Value of `line.split("=")[0].trim()`. -/
def varNameOf (line : Str) : Str :=
  trim ((split line ['=']).headD [])

/-- One iteration of the loop of `loadDefinitions` on the raw line `raw` with
the pending documentation `currentDoc`: the record pushed by the iteration, if
any, and the pending documentation afterwards. -/
def scanLine (currentDoc : Str) (raw : Str) : Option Item × Str :=
  let line := trim raw
  if startsWith line metaMarker || line == [] then (none, [])
  else if startsWith line docMarker && !startsWith line annotMarker then
    (none, trim (line.drop 3))
  else
    match funcMatch line with
    | some fullName =>
      (some { name := displayName fullName, kind := .Function,
              detail := apiDetail ++ fullName, documentation := some currentDoc }, [])
    | none =>
      if includes line classMarker then
        match classNameOf line with
        | some (c :: cs) =>
          (some { name := c :: cs, kind := .Class,
                  detail := typeDetail ++ (c :: cs), documentation := none }, currentDoc)
        | _ => (none, currentDoc)
      else if includes line ['='] && !startsWith line commentMarker then
        let varName := varNameOf line
        if varName != [] && !includes varName [' '] && !startsWith varName docMarker then
          (some { name := varName, kind := .Variable,
                  detail := globalDetail, documentation := none }, currentDoc)
        else (none, currentDoc)
      else (none, currentDoc)

/-- The loop of `loadDefinitions` over the remaining lines, started with the
pending documentation `currentDoc`: the records pushed, in order. -/
def scanFrom (currentDoc : Str) : List Str → List Item
  | [] => []
  | raw :: rest =>
    match scanLine currentDoc raw with
    | (some item, doc) => item :: scanFrom doc rest
    | (none, doc) => scanFrom doc rest

/-- Pending documentation after the loop has run over `lines`. -/
def docAfter (currentDoc : Str) : List Str → Str
  | [] => currentDoc
  | raw :: rest => docAfter (scanLine currentDoc raw).2 rest

/-- Lines of a file text: `rawData.split("\n")`. -/
def linesOf (rawData : Str) : List Str :=
  split rawData ['\n']

/-! ## File system and the two operations -/

/-- What a path resolves to: a file that can be read, with its decoded text, or
something that exists but whose read raises (a directory, a file without read
permission). -/
inductive FsEntry where
  | file (rawData : Str)
  | unreadable
  deriving DecidableEq, Repr

/-- File system seen through `fs.existsSync` and `fs.readFileSync`: `none` for a
path that does not exist. -/
abbrev FileSystem := Str → Option FsEntry

/-- Exception raised by `fs.readFileSync`. -/
inductive ReadError where
  | readFailed (path : Str)
  deriving DecidableEq, Repr

/-- `fs.existsSync`. -/
def existsSync (fs : FileSystem) (path : Str) : Bool :=
  (fs path).isSome

/-- `fs.readFileSync(path, "utf-8")`: the decoded text, or an exception. -/
def readFileSync (fs : FileSystem) (path : Str) : Except ReadError Str :=
  match fs path with
  | some (.file rawData) => .ok rawData
  | _ => .error (.readFailed path)

/-- Source function `loadDefinitions(targetPath)`. -/
def loadDefinitions (fs : FileSystem) (targetPath : Str) : Except ReadError (List Item) :=
  if !existsSync fs targetPath then .ok []
  else do
    let rawData ← readFileSync fs targetPath
    let lines := linesOf rawData
    pure (scanFrom [] lines)

/-- The two file names joined to the extension path by `reloadCompletions`. -/
def apiFile : Str := "api.d.lua".toList
def globalsFile : Str := "globals.d.lua".toList

/-- Exceptions that can leave `reloadCompletions`: a failed read, or the `RangeError`
of a call with too many arguments. -/
inductive ReloadError where
  | read (e : ReadError)
  | range
  deriving DecidableEq, Repr

/-- The call `completions.push(...records)`: the records are spread into the arguments
of one call.  The engine accepts at most `maxArgs` arguments in a call and raises a
`RangeError` beyond that, before anything is pushed. -/
def pushSpread (maxArgs : Nat) (completions records : List Item) :
    Except ReloadError (List Item) :=
  if records.length ≤ maxArgs then .ok (completions ++ records) else .error .range

/-- Source function `reloadCompletions()` of `activate`, on the collection
`completions`: the collection afterwards and the exception raised, if any.  `join` is
`path.join`, `extPath` the extension path and `maxArgs` the number of arguments the
engine accepts in one call. -/
def reloadCompletions (maxArgs : Nat) (fs : FileSystem) (join : Str → Str → Str)
    (extPath : Str) (completions : List Item) : List Item × Option ReloadError :=
  let completions := completions.take 0
  match loadDefinitions fs (join extPath apiFile) with
  | .error e => (completions, some (.read e))
  | .ok first =>
    match pushSpread maxArgs completions first with
    | .error e => (completions, some e)
    | .ok completions =>
      match loadDefinitions fs (join extPath globalsFile) with
      | .error e => (completions, some (.read e))
      | .ok second =>
        match pushSpread maxArgs completions second with
        | .error e => (completions, some e)
        | .ok completions => (completions, none)

/-! ## The hover provider -/

/-- Pieces appended to the `vscode.MarkdownString` of a hover, in order. -/
inductive MdPart where
  | markdown (value : Str)
  | codeblock (code language : Str)
  deriving DecidableEq, Repr

/-- The lookup `completions.find(c => c.name === word)`. -/
def findByName (completions : List Item) (word : Str) : Option Item :=
  completions.find? fun c => c.name == word

/-- The Markdown that `provideHover` builds for the record `found`: the detail in
bold, the documentation when it is a non-empty string, the name as a code block. -/
def hoverMarkdown (found : Item) : List MdPart :=
  let md := [MdPart.markdown ("**".toList ++ found.detail ++ "**\n\n".toList)]
  let md :=
    match found.documentation with
    | some (c :: cs) => md ++ [MdPart.markdown ((c :: cs) ++ "\n\n".toList)]
    | _ => md
  md ++ [MdPart.codeblock found.name "lua".toList]

/-- Source function `provideHover`: `word` is the text of the word range at the
position, `none` when `getWordRangeAtPosition` finds no range; the result `none`
stands for `undefined`. -/
def provideHover (completions : List Item) (word : Option Str) : Option (List MdPart) :=
  match word with
  | none => none
  | some w =>
    match findByName completions w with
    | none => none
    | some found => some (hoverMarkdown found)

/-! ## Vocabulary of the properties -/

/-- Qualified name `s1 d1 s2 ... d(n-1) sn`: the segments before the last one, each
paired with the delimiter that follows it, then the last segment. -/
def qualified : List (Str × Char) → Str → Str
  | [], last => last
  | (s, d) :: rest, last => s ++ d :: qualified rest last

/-- A non-empty run of letters, digits and underscores. -/
def isWord (s : Str) : Bool :=
  s != [] && s.all isWordChar

/-- Lines on which the loop resets the pending documentation and goes on: the
trimmed line begins with `---@meta` or is empty. -/
def isResetLine (raw : Str) : Bool :=
  startsWith (trim raw) metaMarker || trim raw == []

/-- Documentation-comment lines: the trimmed line begins with `---` but not with
`---@`. -/
def isDocLine (raw : Str) : Bool :=
  startsWith (trim raw) docMarker && !startsWith (trim raw) annotMarker

/-- Function declaration lines: the lines that reach the function branch of the
loop and match its pattern. -/
def isFunctionLine (raw : Str) : Bool :=
  !isResetLine raw && !isDocLine raw && (funcMatch (trim raw)).isSome

/-- Text of the worked example of the specification. -/
def exampleText : Str :=
  "---@meta\n\n--- Creates a widget\nfunction Widget.new(x)\n---@class Widget\nSomeGlobal = 5".toList

/-- File system holding exactly the listed readable files. -/
def fsOfList (files : List (Str × Str)) : FileSystem :=
  fun p => (files.lookup p).map FsEntry.file

/-- Joining of a directory and a file name with a slash. -/
def joinSlash (dir name : Str) : Str :=
  dir ++ '/' :: name

/-- Class annotation lines: the lines that reach the class branch of the loop. -/
def isClassLine (raw : Str) : Bool :=
  !isResetLine raw && !isDocLine raw && (funcMatch (trim raw)).isNone &&
    includes (trim raw) classMarker

/-- Lines of every other kind: neither a reset line, nor a documentation comment,
nor a function declaration line. -/
def isOtherLine (raw : Str) : Bool :=
  !isResetLine raw && !isDocLine raw && !isFunctionLine raw

/-- Stripped text of a documentation-comment line: `line.substring(3).trim()` of the
trimmed line. -/
def docText (raw : Str) : Str :=
  trim ((trim raw).drop 3)

/-- One step of the loop of `loadDefinitions` on the pair of the records pushed so
far and the pending documentation. -/
def scanStep (st : List Item × Str) (raw : Str) : List Item × Str :=
  (st.1 ++ (scanLine st.2 raw).1.toList, (scanLine st.2 raw).2)

/-- The loop of `loadDefinitions` as a left fold over the lines. -/
def scanFold (lines : List Str) : List Item × Str :=
  lines.foldl scanStep ([], [])

/-- Text with every line feed turned into carriage return and line feed. -/
def toCRLF : Str → Str
  | [] => []
  | c :: cs => if c = '\n' then '\r' :: '\n' :: toCRLF cs else c :: toCRLF cs

/-- The line `a` is the line `b` with white space added in front and behind. -/
def isPaddingOf (a b : Str) : Prop :=
  ∃ w1 w2 : Str, (∀ c ∈ w1, isWs c = true) ∧ (∀ c ∈ w2, isWs c = true) ∧ a = w1 ++ (b ++ w2)

/-- Record of the line `x = 1`. -/
def xGlobal : Item :=
  { name := "x".toList, kind := .Variable, detail := globalDetail, documentation := none }

/-- Text of 130000 lines `x = 1`, each ended by a line feed. -/
def manyGlobals : Str :=
  (List.replicate 130000 "x = 1\n".toList).flatten

/-! ## The scan as a whole -/

theorem scanFrom_append (d : Str) (A B : List Str) :
    scanFrom d (A ++ B) = scanFrom d A ++ scanFrom (docAfter d A) B := by
  induction A generalizing d with
  | nil => simp [scanFrom, docAfter]
  | cons raw rest ih =>
    simp only [List.cons_append, scanFrom, docAfter]
    rcases h : scanLine d raw with ⟨_ | item, doc⟩ <;> simp [ih]

theorem scanFrom_cons (d : Str) (raw : Str) (B : List Str) :
    scanFrom d (raw :: B) = (scanLine d raw).1.toList ++ scanFrom (scanLine d raw).2 B := by
  simp only [scanFrom]
  rcases h : scanLine d raw with ⟨_ | item, doc⟩ <;> simp

theorem loadDefinitions_eq (fs : FileSystem) (path : Str) :
    loadDefinitions fs path =
      match fs path with
      | none => .ok []
      | some .unreadable => .error (.readFailed path)
      | some (.file rawData) => .ok (scanFrom [] (linesOf rawData)) := by
  unfold loadDefinitions existsSync readFileSync
  rcases h : fs path with _ | _ | _ <;> rfl

theorem load_file (fs : FileSystem) (path text : Str) (h : fs path = some (.file text)) :
    loadDefinitions fs path = .ok (scanFrom [] (linesOf text)) := by
  rw [loadDefinitions_eq, h]

theorem load_at_line (fs : FileSystem) (path text : Str) (A B : List Str) (raw : Str)
    (h : fs path = some (.file text)) (hl : linesOf text = A ++ raw :: B) :
    loadDefinitions fs path =
      .ok (scanFrom [] A ++ ((scanLine (docAfter [] A) raw).1.toList ++
        scanFrom (scanLine (docAfter [] A) raw).2 B)) := by
  rw [load_file fs path text h, hl, scanFrom_append, scanFrom_cons]

/-! ## Characters -/

theorem isWordChar_isIdentChar {c : Char} (h : isWordChar c = true) : isIdentChar c = true := by
  simp [isIdentChar, h]

theorem isDotColon_isIdentChar {c : Char} (h : isDotColon c = true) : isIdentChar c = true := by
  simp [isIdentChar, h]

theorem isDotColon_not_ws {c : Char} (h : isDotColon c = true) : isWs c = false := by
  simp only [isDotColon, Bool.or_eq_true, beq_iff_eq] at h
  rcases h with rfl | rfl <;> decide

theorem isWordChar_not_ws {c : Char} (h : isWordChar c = true) : isWs c = false := by
  simp only [isWordChar, Bool.or_eq_true, beq_iff_eq] at h
  rcases h with h | rfl
  · simp only [isAlnum, Bool.or_eq_true, Bool.and_eq_true, decide_eq_true_eq] at h
    simp only [isWs, Bool.or_eq_false_iff, beq_eq_false_iff_ne, ne_eq, Bool.and_eq_false_imp,
      decide_eq_true_eq, decide_eq_false_iff_not]
    omega
  · decide

theorem isIdentChar_not_ws {c : Char} (h : isIdentChar c = true) : isWs c = false := by
  simp only [isIdentChar, Bool.or_eq_true] at h
  rcases h with h | h
  · exact isWordChar_not_ws h
  · exact isDotColon_not_ws h

theorem isWordChar_not_dotColon {c : Char} (h : isWordChar c = true) : isDotColon c = false := by
  cases hd : isDotColon c with
  | false => rfl
  | true =>
    simp only [isDotColon, Bool.or_eq_true, beq_iff_eq] at hd
    rcases hd with rfl | rfl <;> exact absurd h (by decide)

/-! ## Prefixes and substrings -/

theorem startsWith_nil (s : Str) : startsWith s [] = true := by
  simp [startsWith]

theorem startsWith_cons_cons (a b : Char) (s p : Str) :
    startsWith (a :: s) (b :: p) = (b == a && startsWith s p) := by
  simp [startsWith, List.isPrefixOf]

theorem startsWith_nil_cons (b : Char) (p : Str) : startsWith [] (b :: p) = false := by
  simp [startsWith, List.isPrefixOf]

theorem startsWith_append_self (p rest : Str) : startsWith (p ++ rest) p = true := by
  induction p with
  | nil => exact startsWith_nil _
  | cons a p ih => simp [startsWith_cons_cons, ih]

theorem startsWith_of_append (s p q : Str) (h : startsWith s (p ++ q) = true) :
    startsWith s p = true := by
  induction p generalizing s with
  | nil => exact startsWith_nil _
  | cons a p ih =>
    cases s with
    | nil => simp [startsWith_nil_cons] at h
    | cons b s =>
      simp only [List.cons_append, startsWith_cons_cons, Bool.and_eq_true] at h ⊢
      exact ⟨h.1, ih s h.2⟩

theorem startsWith_append_right (s p w : Str) (h : startsWith s p = true) :
    startsWith (s ++ w) p = true := by
  induction p generalizing s with
  | nil => exact startsWith_nil _
  | cons a p ih =>
    cases s with
    | nil => simp [startsWith_nil_cons] at h
    | cons b s =>
      simp only [List.cons_append, startsWith_cons_cons, Bool.and_eq_true] at h ⊢
      exact ⟨h.1, ih s h.2⟩

theorem includes_of_startsWith (s p : Str) (h : startsWith s p = true) : includes s p = true := by
  cases s with
  | nil => simpa [includes] using h
  | cons c cs => simp [includes, h]

theorem includes_cons (c : Char) (s p : Str) (h : includes s p = true) :
    includes (c :: s) p = true := by
  simp [includes, h]

theorem includes_append_left (w s p : Str) (h : includes s p = true) :
    includes (w ++ s) p = true := by
  induction w with
  | nil => simpa using h
  | cons c w ih => exact includes_cons c _ p ih

theorem includes_append_right (s w p : Str) (h : includes s p = true) :
    includes (s ++ w) p = true := by
  induction s with
  | nil =>
    have hp : p = [] := by
      cases p with
      | nil => rfl
      | cons b p => simp [includes, startsWith_nil_cons] at h
    subst hp
    exact includes_of_startsWith _ _ (startsWith_nil _)
  | cons c s ih =>
    simp only [includes, Bool.or_eq_true] at h
    rcases h with h | h
    · exact includes_of_startsWith _ _ (startsWith_append_right _ _ w h)
    · exact includes_cons c _ p (ih h)

theorem includes_singleton (s : Str) (c : Char) : includes s [c] = true ↔ c ∈ s := by
  induction s with
  | nil => simp [includes, startsWith_nil_cons]
  | cons a s ih =>
    simp only [includes, Bool.or_eq_true, ih, startsWith_cons_cons, startsWith_nil,
      Bool.and_true, beq_iff_eq, List.mem_cons]

theorem includes_singleton_false (s : Str) (c : Char) : includes s [c] = false ↔ c ∉ s := by
  rw [← includes_singleton, Bool.not_eq_true]

/-! ## Trimming -/

theorem trimEnd_cons_nonws {c : Char} (cs : Str) (h : isWs c = false) :
    trimEnd (c :: cs) = c :: trimEnd cs := by
  simp only [trimEnd]
  cases trimEnd cs <;> simp [h]

theorem trimEnd_cons_of_ne_nil (c : Char) (cs : Str) (h : trimEnd cs ≠ []) :
    trimEnd (c :: cs) = c :: trimEnd cs := by
  simp only [trimEnd]
  cases ht : trimEnd cs with
  | nil => exact absurd ht h
  | cons r rs => rfl

theorem trimEnd_append_cons (a : Str) {c : Char} (b : Str) (h : isWs c = false) :
    trimEnd (a ++ c :: b) = a ++ c :: trimEnd b := by
  induction a with
  | nil => exact trimEnd_cons_nonws b h
  | cons x a ih =>
    rw [List.cons_append, trimEnd_cons_of_ne_nil, ih]
    · rfl
    · rw [ih]; simp

theorem trimEnd_allWs (w : Str) (h : ∀ c ∈ w, isWs c = true) : trimEnd w = [] := by
  induction w with
  | nil => rfl
  | cons c w ih =>
    have hw := ih (fun x hx => h x (List.mem_cons_of_mem _ hx))
    simp [trimEnd, hw, h c (List.mem_cons_self _ _)]

theorem trimEnd_noWs (s : Str) (h : ∀ c ∈ s, isWs c = false) : trimEnd s = s := by
  induction s with
  | nil => rfl
  | cons c s ih =>
    rw [trimEnd_cons_nonws s (h c (List.mem_cons_self _ _)),
      ih (fun x hx => h x (List.mem_cons_of_mem _ hx))]

theorem trimStart_cons_nonws {c : Char} (cs : Str) (h : isWs c = false) :
    trimStart (c :: cs) = c :: cs := by
  simp [trimStart, List.dropWhile, h]

theorem trimStart_cons_ws {c : Char} (cs : Str) (h : isWs c = true) :
    trimStart (c :: cs) = trimStart cs := by
  simp [trimStart, List.dropWhile, h]

theorem trimEnd_isPrefix (s : Str) : ∃ w, s = trimEnd s ++ w := by
  induction s with
  | nil => exact ⟨[], rfl⟩
  | cons c s ih =>
    obtain ⟨w, hw⟩ := ih
    simp only [trimEnd]
    cases ht : trimEnd s with
    | nil =>
      by_cases hc : isWs c = true
      · exact ⟨c :: s, by simp [hc]⟩
      · rw [ht] at hw
        exact ⟨w, by simp [hc, hw]⟩
    | cons r rs =>
      rw [ht] at hw
      exact ⟨w, by simp [← hw]⟩

theorem trimStart_isSuffix (s : Str) : ∃ w, s = w ++ trimStart s :=
  ⟨s.takeWhile isWs, (List.takeWhile_append_dropWhile isWs s).symm⟩

theorem trim_isInfix (s : Str) : ∃ u w, s = u ++ trim s ++ w := by
  obtain ⟨u, hu⟩ := trimStart_isSuffix s
  obtain ⟨w, hw⟩ := trimEnd_isPrefix (trimStart s)
  refine ⟨u, w, ?_⟩
  rw [List.append_assoc]
  unfold trim
  rw [← hw]
  exact hu

theorem includes_trim (s p : Str) (h : includes (trim s) p = true) : includes s p = true := by
  obtain ⟨u, w, huw⟩ := trim_isInfix s
  rw [huw]
  exact includes_append_right _ _ _ (includes_append_left _ _ _ h)

/-! ## The function pattern -/

theorem kwFunction_eq : kwFunction = ['f', 'u', 'n', 'c', 't', 'i', 'o', 'n'] := rfl

theorem matchIdentPlus_isSome_iff (s : Str) :
    (matchIdentPlus s).isSome = true ↔ ∃ c rest, s = c :: rest ∧ isIdentChar c = true := by
  cases s with
  | nil => simp [matchIdentPlus]
  | cons c rest =>
    by_cases hc : isIdentChar c = true
    · simp [matchIdentPlus, List.takeWhile, hc]
    · simp [matchIdentPlus, List.takeWhile, hc]

theorem matchIdentPlus_run (q : Str) (c : Char) (rest : Str) (hq : q ≠ [])
    (hall : ∀ x ∈ q, isIdentChar x = true) (hc : isIdentChar c = false) :
    matchIdentPlus (q ++ c :: rest) = some q := by
  have htw : (q ++ c :: rest).takeWhile isIdentChar = q := by
    rw [List.takeWhile_append_of_pos hall]
    simp [List.takeWhile, hc]
  unfold matchIdentPlus
  rw [htw]
  cases q with
  | nil => exact absurd rfl hq
  | cons a q => rfl

theorem matchIdentPlus_mem {s r : Str} (h : matchIdentPlus s = some r) :
    r ≠ [] ∧ ∀ x ∈ r, isIdentChar x = true := by
  unfold matchIdentPlus at h
  have hall : ∀ x ∈ s.takeWhile isIdentChar, isIdentChar x = true :=
    fun x hx => List.mem_takeWhile_imp hx
  cases ht : s.takeWhile isIdentChar with
  | nil => rw [ht] at h; cases h
  | cons a q =>
    rw [ht] at h hall
    cases h
    exact ⟨by simp, hall⟩

theorem matchWsStar_mem {s r : Str} (h : matchWsStar s = some r) :
    r ≠ [] ∧ ∀ x ∈ r, isIdentChar x = true := by
  induction s with
  | nil => exact matchIdentPlus_mem h
  | cons c cs ih =>
    simp only [matchWsStar] at h
    by_cases hc : isWs c = true
    · rw [if_pos hc] at h
      cases hm : matchWsStar cs with
      | some r2 =>
        rw [hm] at h
        cases h
        exact ih hm
      | none =>
        rw [hm] at h
        exact matchIdentPlus_mem h
    · rw [if_neg hc] at h
      exact matchIdentPlus_mem h

theorem matchAt_mem {s r : Str} (h : matchAt s = some r) :
    r ≠ [] ∧ ∀ x ∈ r, isIdentChar x = true := by
  unfold matchAt at h
  split at h
  · cases hd : s.drop kwFunction.length with
    | nil => rw [hd] at h; cases h
    | cons c cs =>
      rw [hd] at h
      simp only [matchWsPlus] at h
      split at h
      · exact matchWsStar_mem h
      · cases h
  · cases h

theorem funcMatch_mem {s r : Str} (h : funcMatch s = some r) :
    r ≠ [] ∧ ∀ x ∈ r, isIdentChar x = true := by
  induction s with
  | nil => exact matchAt_mem h
  | cons c cs ih =>
    simp only [funcMatch] at h
    cases hm : matchAt (c :: cs) with
    | some r2 =>
      rw [hm] at h
      cases h
      exact matchAt_mem hm
    | none =>
      rw [hm] at h
      exact ih h

theorem startsWith_iff_append (s p : Str) : startsWith s p = true ↔ ∃ rest, s = p ++ rest := by
  unfold startsWith
  rw [List.isPrefixOf_iff_prefix]
  constructor
  · rintro ⟨t, ht⟩; exact ⟨t, ht.symm⟩
  · rintro ⟨t, ht⟩; exact ⟨t, ht.symm⟩

theorem matchAt_kw (rest : Str) : matchAt (kwFunction ++ rest) = matchWsPlus rest := by
  unfold matchAt
  rw [if_pos (startsWith_append_self _ _)]
  simp

theorem matchWsStar_append (q w : Str) (h : (matchWsStar q).isSome = true) :
    (matchWsStar (q ++ w)).isSome = true := by
  induction q with
  | nil => simp [matchWsStar, matchIdentPlus] at h
  | cons c cs ih =>
    have hid : (matchIdentPlus (c :: cs)).isSome = true →
        (matchIdentPlus (c :: (cs ++ w))).isSome = true := by
      intro h1
      rw [matchIdentPlus_isSome_iff] at h1 ⊢
      obtain ⟨a, rest, he, ha⟩ := h1
      cases he
      exact ⟨_, _, rfl, ha⟩
    simp only [List.cons_append, matchWsStar] at h ⊢
    by_cases hc : isWs c = true
    · rw [if_pos hc] at h ⊢
      cases hm : matchWsStar cs with
      | some r =>
        have := ih (by simp [hm])
        cases hm2 : matchWsStar (cs ++ w) with
        | some r2 => rfl
        | none => simp [hm2] at this
      | none =>
        rw [hm] at h
        obtain ⟨a, rest, he, ha⟩ := (matchIdentPlus_isSome_iff _).1 h
        cases he
        rw [isIdentChar_not_ws ha] at hc
        cases hc
    · rw [if_neg hc] at h ⊢
      exact hid h

theorem matchWsPlus_append (q w : Str) (h : (matchWsPlus q).isSome = true) :
    (matchWsPlus (q ++ w)).isSome = true := by
  cases q with
  | nil => simp [matchWsPlus] at h
  | cons c cs =>
    simp only [List.cons_append, matchWsPlus] at h ⊢
    by_cases hc : isWs c = true
    · rw [if_pos hc] at h ⊢
      exact matchWsStar_append _ _ h
    · rw [if_neg hc] at h
      cases h

theorem matchAt_append (s w : Str) (h : (matchAt s).isSome = true) :
    (matchAt (s ++ w)).isSome = true := by
  by_cases hs : startsWith s kwFunction = true
  · obtain ⟨rest, rfl⟩ := (startsWith_iff_append _ _).1 hs
    rw [List.append_assoc, matchAt_kw]
    rw [matchAt_kw] at h
    exact matchWsPlus_append _ _ h
  · simp [matchAt, hs] at h

theorem funcMatch_append (s w : Str) (h : (funcMatch s).isSome = true) :
    (funcMatch (s ++ w)).isSome = true := by
  induction s with
  | nil => simp [funcMatch, matchAt, startsWith, kwFunction_eq, List.isPrefixOf] at h
  | cons c cs ih =>
    simp only [List.cons_append, funcMatch] at h ⊢
    cases hm : matchAt (c :: cs) with
    | some r =>
      have := matchAt_append (c :: cs) w (by simp [hm])
      rw [List.cons_append] at this
      cases hm2 : matchAt (c :: (cs ++ w)) with
      | some r2 => rfl
      | none => simp [hm2] at this
    | none =>
      rw [hm] at h
      cases hm2 : matchAt (c :: (cs ++ w)) with
      | some r2 => rfl
      | none => exact ih h

theorem funcMatch_prepend (u s : Str) (h : (funcMatch s).isSome = true) :
    (funcMatch (u ++ s)).isSome = true := by
  induction u with
  | nil => exact h
  | cons c u ih =>
    simp only [List.cons_append, funcMatch]
    cases hm : matchAt (c :: (u ++ s)) with
    | some r => rfl
    | none => exact ih

/-- A line without the function pattern has none after trimming either. -/
theorem funcMatch_trim_none (s : Str) (h : funcMatch s = none) : funcMatch (trim s) = none := by
  obtain ⟨u, w, huw⟩ := trim_isInfix s
  cases ht : funcMatch (trim s) with
  | none => rfl
  | some r =>
    have h1 := funcMatch_prepend u _ (funcMatch_append (trim s) w (by simp [ht]))
    rw [← List.append_assoc, ← huw, h] at h1
    cases h1

theorem includes_trim_false (s p : Str) (h : includes s p = false) :
    includes (trim s) p = false := by
  cases ht : includes (trim s) p with
  | false => rfl
  | true => rw [includes_trim s p ht] at h; cases h

theorem funcMatch_of_matchAt (s r : Str) (h : matchAt s = some r) : funcMatch s = some r := by
  cases s with
  | nil => exact h
  | cons c cs => rw [funcMatch, h]

theorem matchWsStar_cons_of_some {c : Char} {cs r : Str} (hc : isWs c = true)
    (h : matchWsStar cs = some r) : matchWsStar (c :: cs) = some r := by
  rw [matchWsStar, if_pos hc, h]

theorem matchWsStar_cons_nonws {c : Char} (cs : Str) (hc : isWs c = false) :
    matchWsStar (c :: cs) = matchIdentPlus (c :: cs) := by
  rw [matchWsStar, if_neg (by simp [hc])]

theorem matchWsPlus_cons_ws {c : Char} (cs : Str) (hc : isWs c = true) :
    matchWsPlus (c :: cs) = matchWsStar cs := by
  rw [matchWsPlus, if_pos hc]

/-- The pattern found right at the start of the text. -/
theorem funcMatch_kw (rest r : Str) (h : matchWsPlus rest = some r) :
    funcMatch (kwFunction ++ rest) = some r :=
  funcMatch_of_matchAt _ _ (by rw [matchAt_kw, h])

/-- The pattern on `function`, white space, a run `q` of class characters and then
a character outside the class: the capture is `q`. -/
theorem funcMatch_decl (ws q : Str) (c : Char) (rest : Str) (hws : ws ≠ [])
    (hall : ∀ x ∈ ws, isWs x = true) (hq : q ≠ [])
    (hid : ∀ x ∈ q, isIdentChar x = true) (hc : isIdentChar c = false) :
    funcMatch (kwFunction ++ (ws ++ (q ++ c :: rest))) = some q := by
  apply funcMatch_kw
  have hstar : ∀ v : Str, (∀ x ∈ v, isWs x = true) →
      matchWsStar (v ++ (q ++ c :: rest)) = some q := by
    intro v hv
    induction v with
    | nil =>
      cases q with
      | nil => exact absurd rfl hq
      | cons a q =>
        have ha := isIdentChar_not_ws (hid a (List.mem_cons_self _ _))
        rw [List.nil_append, List.cons_append, matchWsStar_cons_nonws _ ha]
        exact matchIdentPlus_run (a :: q) c rest hq hid hc
    | cons x v ih =>
      rw [List.cons_append]
      exact matchWsStar_cons_of_some (hv x (List.mem_cons_self _ _))
        (ih (fun y hy => hv y (List.mem_cons_of_mem _ hy)))
  cases ws with
  | nil => exact absurd rfl hws
  | cons x v =>
    rw [List.cons_append, matchWsPlus_cons_ws _ (hall x (List.mem_cons_self _ _))]
    exact hstar v (fun y hy => hall y (List.mem_cons_of_mem _ hy))

/-! ## Splitting -/

theorem consHead_ne_nil (c : Char) (l : List Str) : consHead c l ≠ [] := by
  cases l <;> simp [consHead]

theorem consHead_append (c : Char) (X Y : List Str) (hX : X ≠ []) :
    consHead c (X ++ Y) = consHead c X ++ Y := by
  cases X with
  | nil => exact absurd rfl hX
  | cons p ps => rfl

theorem mem_consHead {c : Char} {l : List Str} {p : Str} (hp : p ∈ consHead c l) :
    p = [c] ∨ (∃ q, q ∈ l ∧ p = c :: q) ∨ p ∈ l := by
  cases l with
  | nil =>
    simp only [consHead, List.mem_singleton] at hp
    exact Or.inl hp
  | cons q qs =>
    simp only [consHead, List.mem_cons] at hp
    rcases hp with rfl | hp
    · exact Or.inr (Or.inl ⟨q, List.mem_cons_self _ _, rfl⟩)
    · exact Or.inr (Or.inr (List.mem_cons_of_mem _ hp))

theorem splitDotColon_ne_nil (s : Str) : splitDotColon s ≠ [] := by
  cases s with
  | nil => simp [splitDotColon]
  | cons c cs =>
    simp only [splitDotColon]
    split
    · simp
    · exact consHead_ne_nil _ _

theorem splitDotColon_noDelim (s : Str) (h : ∀ c ∈ s, isDotColon c = false) :
    splitDotColon s = [s] := by
  induction s with
  | nil => rfl
  | cons c cs ih =>
    rw [splitDotColon, if_neg (by simp [h c (List.mem_cons_self _ _)]),
      ih (fun x hx => h x (List.mem_cons_of_mem _ hx))]
    rfl

theorem splitDotColon_append_delim (a : Str) (d : Char) (b : Str) (hd : isDotColon d = true) :
    ∃ X, X ≠ [] ∧ splitDotColon (a ++ d :: b) = X ++ splitDotColon b := by
  induction a with
  | nil => exact ⟨[[]], by simp, by rw [List.nil_append, splitDotColon, if_pos hd]; rfl⟩
  | cons c a ih =>
    obtain ⟨X, hX, hs⟩ := ih
    rw [List.cons_append, splitDotColon]
    by_cases hc : isDotColon c = true
    · rw [if_pos hc, hs]
      exact ⟨[] :: X, by simp, rfl⟩
    · rw [if_neg hc, hs, consHead_append c X _ hX]
      exact ⟨consHead c X, consHead_ne_nil _ _, rfl⟩

theorem splitDotColon_mem (s : Str) : ∀ p ∈ splitDotColon s, ∀ c ∈ p, c ∈ s := by
  induction s with
  | nil =>
    intro p hp c hc
    simp only [splitDotColon, List.mem_singleton] at hp
    subst hp
    exact hc
  | cons x s ih =>
    intro p hp c hc
    rw [splitDotColon] at hp
    split at hp
    · rcases List.mem_cons.1 hp with rfl | hp
      · cases hc
      · exact List.mem_cons_of_mem _ (ih p hp c hc)
    · rcases mem_consHead hp with rfl | ⟨q, hq, rfl⟩ | hp
      · rw [List.mem_singleton.1 hc]; exact List.mem_cons_self _ _
      · rcases List.mem_cons.1 hc with rfl | hc
        · exact List.mem_cons_self _ _
        · exact List.mem_cons_of_mem _ (ih q hq c hc)
      · exact List.mem_cons_of_mem _ (ih p hp c hc)

theorem getLastD_mem_of_ne_nil (l : List Str) (d : Str) (h : l ≠ []) : l.getLastD d ∈ l := by
  induction l generalizing d with
  | nil => exact absurd rfl h
  | cons a l ih =>
    rw [List.getLastD_cons]
    cases l with
    | nil => exact List.mem_cons_self _ _
    | cons b l => exact List.mem_cons_of_mem _ (ih a (by simp))

theorem getLastD_append_singleton (X : List Str) (d s : Str) : (X ++ [s]).getLastD d = s := by
  induction X generalizing d with
  | nil => rfl
  | cons a X ih => rw [List.cons_append, List.getLastD_cons, ih]

/-- Every character of the display name is a character of the full name. -/
theorem displayName_mem (fullName : Str) : ∀ c ∈ displayName fullName, c ∈ fullName := by
  intro c hc
  unfold displayName at hc
  split at hc
  · exact splitDotColon_mem fullName _
      (getLastD_mem_of_ne_nil _ _ (splitDotColon_ne_nil fullName)) c hc
  · exact hc

theorem displayName_plain (s : Str) (h : ∀ c ∈ s, isDotColon c = false) : displayName s = s := by
  have h1 : includes s [':'] = false :=
    (includes_singleton_false s ':').2 (fun hm => by have := h _ hm; revert this; decide)
  have h2 : includes s ['.'] = false :=
    (includes_singleton_false s '.').2 (fun hm => by have := h _ hm; revert this; decide)
  simp [displayName, h1, h2]

theorem displayName_qualified (a : Str) (d : Char) (last : Str) (hd : isDotColon d = true)
    (h : ∀ c ∈ last, isDotColon c = false) : displayName (a ++ d :: last) = last := by
  have hinc : (includes (a ++ d :: last) [':'] || includes (a ++ d :: last) ['.']) = true := by
    simp only [isDotColon, Bool.or_eq_true, beq_iff_eq] at hd
    rw [Bool.or_eq_true, includes_singleton, includes_singleton]
    rcases hd with rfl | rfl
    · exact Or.inr (by simp)
    · exact Or.inl (by simp)
  obtain ⟨X, _, hs⟩ := splitDotColon_append_delim a d last hd
  rw [displayName, if_pos hinc, hs, splitDotColon_noDelim last h]
  exact getLastD_append_singleton X [] last

theorem splitAux_skip (sep u s : Str) : splitAux sep (u ++ s) u.length = splitAux sep s 0 := by
  induction u with
  | nil => rfl
  | cons c u ih => rw [List.cons_append, List.length_cons, splitAux, ih]

theorem startsWith_head_not_mem (h : Char) (t s : Str) (hs : h ∉ s) :
    startsWith s (h :: t) = false := by
  cases s with
  | nil => exact startsWith_nil_cons _ _
  | cons c cs =>
    rw [startsWith_cons_cons]
    have : (h == c) = false := by
      rw [beq_eq_false_iff_ne]
      rintro rfl
      exact hs (List.mem_cons_self _ _)
    simp [this]

/-- Text without the first character of the separator is a single piece. -/
theorem splitAux_no_head (h : Char) (t s : Str) (hs : h ∉ s) :
    splitAux (h :: t) s 0 = [s] := by
  induction s with
  | nil => rfl
  | cons c cs ih =>
    rw [splitAux, if_neg (by simp [startsWith_head_not_mem h t (c :: cs) hs]),
      ih (fun hm => hs (List.mem_cons_of_mem _ hm))]
    rfl

/-- First piece of a split on one character: the text before its first occurrence. -/
theorem split_headD_single (a : Str) (c : Char) (b : Str) (ha : c ∉ a) :
    (split (a ++ c :: b) [c]).headD [] = a := by
  unfold split
  induction a with
  | nil =>
    rw [List.nil_append, splitAux, if_pos (by simp [startsWith_cons_cons, startsWith_nil])]
    rfl
  | cons x a ih =>
    have hx : (c == x) = false := by
      rw [beq_eq_false_iff_ne]
      rintro rfl
      exact ha (List.mem_cons_self _ _)
    rw [List.cons_append, splitAux,
      if_neg (by simp [startsWith_cons_cons, hx])]
    have := ih (fun hm => ha (List.mem_cons_of_mem _ hm))
    cases hsp : splitAux [c] (a ++ c :: b) 0 with
    | nil => rw [hsp] at this; simp at this; subst this; rfl
    | cons p ps => rw [hsp] at this; simp at this; subst this; rfl

theorem split_headD_single_none (a : Str) (c : Char) (ha : c ∉ a) :
    (split a [c]).headD [] = a := by
  unfold split
  rw [splitAux_no_head c [] a ha]
  rfl

/-- The first piece of a split on one character does not contain it. -/
theorem split_headD_not_mem (s : Str) (c : Char) : c ∉ (split s [c]).headD [] := by
  by_cases hc : c ∈ s
  · obtain ⟨a, b, rfl, ha⟩ := List.eq_append_cons_of_mem hc
    rw [split_headD_single a c b ha]
    exact ha
  · rw [split_headD_single_none s c hc]
    exact hc

/-! ## The branches of the loop body -/

theorem metaMarker_eq : metaMarker = annotMarker ++ ['m', 'e', 't', 'a'] := rfl
theorem annotMarker_eq : annotMarker = docMarker ++ ['@'] := rfl
theorem docMarker_eq : docMarker = commentMarker ++ ['-'] := rfl
theorem classMarker_eq : classMarker = annotMarker ++ ['c', 'l', 'a', 's', 's'] := rfl

theorem scanLine_reset (d raw : Str) (h : isResetLine raw = true) :
    scanLine d raw = (none, []) := by
  unfold isResetLine at h
  simp only [scanLine]
  rw [if_pos h]

theorem isDocLine_not_reset (raw : Str) (h : isDocLine raw = true) :
    isResetLine raw = false := by
  simp only [isDocLine, Bool.and_eq_true, Bool.not_eq_true'] at h
  have h1 : startsWith (trim raw) metaMarker = false := by
    cases hm : startsWith (trim raw) metaMarker with
    | false => rfl
    | true =>
      rw [metaMarker_eq] at hm
      rw [startsWith_of_append _ _ _ hm] at h
      exact absurd h.2 (by simp)
  have h2 : (trim raw == []) = false := by
    cases ht : trim raw with
    | nil => rw [ht] at h; exact absurd h.1 (by decide)
    | cons c cs => rfl
  simp [isResetLine, h1, h2]

theorem scanLine_doc (d raw : Str) (h : isDocLine raw = true) :
    scanLine d raw = (none, trim ((trim raw).drop 3)) := by
  have hr := isDocLine_not_reset raw h
  unfold isResetLine at hr
  unfold isDocLine at h
  simp only [scanLine]
  rw [if_neg (by rw [hr]; decide), if_pos h]

theorem scanLine_function (d raw : Str) (h : isFunctionLine raw = true) :
    ∃ fullName, funcMatch (trim raw) = some fullName ∧
      scanLine d raw =
        (some { name := displayName fullName, kind := .Function,
                detail := apiDetail ++ fullName, documentation := some d }, []) := by
  simp only [isFunctionLine, Bool.and_eq_true, Bool.not_eq_true'] at h
  obtain ⟨⟨hr, hdoc⟩, hm⟩ := h
  unfold isResetLine at hr
  unfold isDocLine at hdoc
  cases hf : funcMatch (trim raw) with
  | none => rw [hf] at hm; cases hm
  | some fullName =>
    refine ⟨fullName, rfl, ?_⟩
    simp only [scanLine]
    rw [if_neg (by rw [hr]; decide), if_neg (by rw [hdoc]; decide), hf]

/-- Lines past the reset and documentation tests without the function pattern. -/
theorem scanLine_other (d raw : Str) (hr : isResetLine raw = false) (hdoc : isDocLine raw = false)
    (hf : funcMatch (trim raw) = none) :
    scanLine d raw =
      if includes (trim raw) classMarker then
        match classNameOf (trim raw) with
        | some (c :: cs) =>
          (some { name := c :: cs, kind := .Class,
                  detail := typeDetail ++ (c :: cs), documentation := none }, d)
        | _ => (none, d)
      else if includes (trim raw) ['='] && !startsWith (trim raw) commentMarker then
        if varNameOf (trim raw) != [] && !includes (varNameOf (trim raw)) [' '] &&
            !startsWith (varNameOf (trim raw)) docMarker then
          (some { name := varNameOf (trim raw), kind := .Variable,
                  detail := globalDetail, documentation := none }, d)
        else (none, d)
      else (none, d) := by
  unfold isResetLine at hr
  unfold isDocLine at hdoc
  simp only [scanLine]
  rw [if_neg (by rw [hr]; decide), if_neg (by rw [hdoc]; decide), hf]

/-! ## Qualified names -/

theorem isWord_ne_nil {s : Str} (h : isWord s = true) : s ≠ [] := by
  simp only [isWord, Bool.and_eq_true, bne_iff_ne, ne_eq] at h
  exact h.1

theorem isWord_mem {s : Str} (h : isWord s = true) : ∀ c ∈ s, isWordChar c = true := by
  simp only [isWord, Bool.and_eq_true, List.all_eq_true] at h
  exact h.2

theorem qualified_ne_nil (segs : List (Str × Char)) (last : Str) (h : last ≠ []) :
    qualified segs last ≠ [] := by
  cases segs with
  | nil => exact h
  | cons p rest =>
    obtain ⟨s, d⟩ := p
    simp [qualified]

theorem qualified_ident (segs : List (Str × Char)) (last : Str)
    (hsegs : ∀ p ∈ segs, isWord p.1 = true ∧ isDotColon p.2 = true)
    (hlast : isWord last = true) : ∀ c ∈ qualified segs last, isIdentChar c = true := by
  induction segs with
  | nil => exact fun c hc => isWordChar_isIdentChar (isWord_mem hlast c hc)
  | cons p rest ih =>
    obtain ⟨s, d⟩ := p
    intro c hc
    have hp := hsegs (s, d) (List.mem_cons_self _ _)
    simp only [qualified, List.mem_append, List.mem_cons] at hc
    rcases hc with hc | rfl | hc
    · exact isWordChar_isIdentChar (isWord_mem hp.1 c hc)
    · exact isDotColon_isIdentChar hp.2
    · exact ih (fun q hq => hsegs q (List.mem_cons_of_mem _ hq)) c hc

theorem qualified_decompose (segs : List (Str × Char)) (last : Str)
    (hsegs : ∀ p ∈ segs, isDotColon p.2 = true) (hne : segs ≠ []) :
    ∃ a d, isDotColon d = true ∧ qualified segs last = a ++ d :: last := by
  induction segs with
  | nil => exact absurd rfl hne
  | cons p rest ih =>
    obtain ⟨s, d⟩ := p
    cases rest with
    | nil => exact ⟨s, d, hsegs (s, d) (List.mem_cons_self _ _), rfl⟩
    | cons p2 rest2 =>
      obtain ⟨a, d2, hd2, he⟩ := ih (fun q hq => hsegs q (List.mem_cons_of_mem _ hq)) (by simp)
      refine ⟨s ++ d :: a, d2, hd2, ?_⟩
      rw [qualified, he]
      simp

theorem displayName_qualified_name (segs : List (Str × Char)) (last : Str)
    (hsegs : ∀ p ∈ segs, isWord p.1 = true ∧ isDotColon p.2 = true)
    (hlast : isWord last = true) : displayName (qualified segs last) = last := by
  have hl : ∀ c ∈ last, isDotColon c = false :=
    fun c hc => isWordChar_not_dotColon (isWord_mem hlast c hc)
  cases segs with
  | nil => exact displayName_plain last hl
  | cons p rest =>
    obtain ⟨a, d, hd, he⟩ := qualified_decompose (p :: rest) last
      (fun q hq => (hsegs q hq).2) (by simp)
    rw [he]
    exact displayName_qualified a d last hd hl

theorem startsWith_cons_ne {a b : Char} (s p : Str) (h : b ≠ a) :
    startsWith (a :: s) (b :: p) = false := by
  rw [startsWith_cons_cons]
  simp [h]

/-- A trimmed line that is not empty and does not begin with `--` passes the reset
test and the documentation test. -/
theorem not_reset_not_doc_of_not_comment (raw : Str) (hne : trim raw ≠ [])
    (hc : startsWith (trim raw) commentMarker = false) :
    isResetLine raw = false ∧ isDocLine raw = false := by
  have hdoc : startsWith (trim raw) docMarker = false := by
    cases h : startsWith (trim raw) docMarker with
    | false => rfl
    | true =>
      rw [docMarker_eq] at h
      rw [startsWith_of_append _ _ _ h] at hc
      cases hc
  have hannot : startsWith (trim raw) annotMarker = false := by
    cases h : startsWith (trim raw) annotMarker with
    | false => rfl
    | true =>
      rw [annotMarker_eq] at h
      rw [startsWith_of_append _ _ _ h] at hdoc
      cases hdoc
  have hmeta : startsWith (trim raw) metaMarker = false := by
    cases h : startsWith (trim raw) metaMarker with
    | false => rfl
    | true =>
      rw [metaMarker_eq] at h
      rw [startsWith_of_append _ _ _ h] at hannot
      cases hannot
  have hnil : (trim raw == []) = false := by
    cases ht : trim raw with
    | nil => exact absurd ht hne
    | cons c cs => rfl
  constructor
  · simp [isResetLine, hmeta, hnil]
  · simp [isDocLine, hdoc]

/-- The loop body on a line `function Q(...)`. -/
theorem scanLine_function_decl (d raw : Str) (segs : List (Str × Char)) (last args : Str)
    (hraw : trim raw = kwFunction ++ ' ' :: (qualified segs last ++ '(' :: args))
    (hsegs : ∀ p ∈ segs, isWord p.1 = true ∧ isDotColon p.2 = true)
    (hlast : isWord last = true) :
    scanLine d raw =
      (some { name := last, kind := .Function,
              detail := apiDetail ++ qualified segs last, documentation := some d }, []) := by
  have hm : funcMatch (trim raw) = some (qualified segs last) := by
    rw [hraw]
    exact funcMatch_decl [' '] (qualified segs last) '(' args (by simp)
      (by intro x hx; rw [List.mem_singleton.1 hx]; decide)
      (qualified_ne_nil segs last (isWord_ne_nil hlast))
      (qualified_ident segs last hsegs hlast) (by decide)
  have hnc := not_reset_not_doc_of_not_comment raw
    (by rw [hraw, kwFunction_eq]; simp)
    (by rw [hraw, kwFunction_eq]; exact startsWith_cons_ne _ _ (by decide))
  have hfl : isFunctionLine raw = true := by
    simp [isFunctionLine, hnc.1, hnc.2, hm]
  obtain ⟨fullName, hf, hs⟩ := scanLine_function d raw hfl
  rw [hm] at hf
  cases hf
  rw [hs, displayName_qualified_name segs last hsegs hlast]

/-- C1. For every line of a file whose trimmed text is `function Q(...)`, with `Q` a
qualified name `s1 d1 ... sn` of non-empty runs of letters, digits and underscores
joined by `.` or `:`, `loadDefinitions` emits exactly one record for that line, placed
between the records of the lines before and after it: kind Function, name the last
segment `sn`, detail `Potassium API: ` followed by the whole of `Q`. -/
theorem loadDefinitions_function_decl (fs : FileSystem) (path text : Str) (A B : List Str)
    (raw : Str) (segs : List (Str × Char)) (last args : Str)
    (hfile : fs path = some (.file text)) (hlines : linesOf text = A ++ raw :: B)
    (hraw : trim raw = kwFunction ++ ' ' :: (qualified segs last ++ '(' :: args))
    (hsegs : ∀ p ∈ segs, isWord p.1 = true ∧ isDotColon p.2 = true)
    (hlast : isWord last = true) :
    loadDefinitions fs path = .ok (scanFrom [] A ++
      { name := last, kind := .Function, detail := apiDetail ++ qualified segs last,
        documentation := some (docAfter [] A) } :: scanFrom [] B) := by
  rw [load_at_line fs path text A B raw hfile hlines,
    scanLine_function_decl (docAfter [] A) raw segs last args hraw hsegs hlast]
  rfl

theorem loadDefinitions_function_decl_witness :
    loadDefinitions (fun _ => some (.file "x = 1\nfunction foo.bar:baz(a, b)\ny = 2".toList)) [] =
      .ok [ { name := "x".toList, kind := .Variable, detail := globalDetail,
              documentation := none },
            { name := "baz".toList, kind := .Function,
              detail := "Potassium API: foo.bar:baz".toList, documentation := some [] },
            { name := "y".toList, kind := .Variable, detail := globalDetail,
              documentation := none } ] :=
  loadDefinitions_function_decl (fun _ => some (.file "x = 1\nfunction foo.bar:baz(a, b)\ny = 2".toList))
    [] "x = 1\nfunction foo.bar:baz(a, b)\ny = 2".toList ["x = 1".toList] ["y = 2".toList]
    "function foo.bar:baz(a, b)".toList [("foo".toList, '.'), ("bar".toList, ':')]
    "baz".toList "a, b)".toList rfl (by decide) (by decide) (by decide) (by decide)

theorem docAfter_append (d : Str) (A B : List Str) :
    docAfter d (A ++ B) = docAfter (docAfter d A) B := by
  induction A generalizing d with
  | nil => rfl
  | cons raw rest ih =>
    rw [List.cons_append, docAfter, docAfter, ih]

/-- A function declaration line that follows lines `M` which push no record: its
record carries the pending documentation left by `M`. -/
theorem load_function_after (fs : FileSystem) (path text : Str) (A M B : List Str) (f : Str)
    (hfile : fs path = some (.file text)) (hlines : linesOf text = A ++ (M ++ f :: B))
    (hM : scanFrom (docAfter [] A) M = []) (hf : isFunctionLine f = true) :
    ∃ fullName, funcMatch (trim f) = some fullName ∧
      loadDefinitions fs path = .ok (scanFrom [] A ++
        { name := displayName fullName, kind := .Function, detail := apiDetail ++ fullName,
          documentation := some (docAfter (docAfter [] A) M) } :: scanFrom [] B) := by
  obtain ⟨fullName, hm, hs⟩ := scanLine_function (docAfter (docAfter [] A) M) f hf
  refine ⟨fullName, hm, ?_⟩
  rw [← List.append_assoc] at hlines
  rw [load_at_line fs path text (A ++ M) B f hfile hlines, docAfter_append, hs,
    scanFrom_append, hM]
  simp

theorem scanFrom_doc_line (d c : Str) (hc : isDocLine c = true) :
    scanFrom d [c] = [] ∧ docAfter d [c] = trim ((trim c).drop 3) := by
  simp [scanFrom, docAfter, scanLine_doc d c hc]

theorem scanFrom_then_reset (d c m : Str) (hc : (scanLine d c).1 = none)
    (hm : isResetLine m = true) :
    scanFrom d [c, m] = [] ∧ docAfter d [c, m] = [] := by
  rcases h : scanLine d c with ⟨r, d2⟩
  rw [h] at hc
  simp only at hc
  subst hc
  simp [scanFrom, docAfter, h, scanLine_reset _ m hm]

/-- C2. In a file where a documentation-comment line (trimmed text beginning with
`---` but not `---@`) is immediately followed by a function declaration line, the
record emitted for that function has as documentation the text of the comment line
after removal of the three-character prefix and of surrounding white space; when a
blank line lies between the two, the documentation of the function record is the
empty string. -/
theorem loadDefinitions_doc_before_function (fs : FileSystem) (path text : Str)
    (A B : List Str) (c f : Str) (hfile : fs path = some (.file text))
    (hc : isDocLine c = true) (hf : isFunctionLine f = true) :
    (linesOf text = A ++ c :: f :: B →
      ∃ fullName, funcMatch (trim f) = some fullName ∧
        loadDefinitions fs path = .ok (scanFrom [] A ++
          { name := displayName fullName, kind := .Function, detail := apiDetail ++ fullName,
            documentation := some (trim ((trim c).drop 3)) } :: scanFrom [] B)) ∧
    (∀ b : Str, trim b = [] → linesOf text = A ++ c :: b :: f :: B →
      ∃ fullName, funcMatch (trim f) = some fullName ∧
        loadDefinitions fs path = .ok (scanFrom [] A ++
          { name := displayName fullName, kind := .Function, detail := apiDetail ++ fullName,
            documentation := some [] } :: scanFrom [] B)) := by
  constructor
  · intro hlines
    have h := scanFrom_doc_line (docAfter [] A) c hc
    have := load_function_after fs path text A [c] B f hfile hlines h.1 hf
    rw [h.2] at this
    exact this
  · intro b hb hlines
    have h := scanFrom_then_reset (docAfter [] A) c b
      (by rw [scanLine_doc _ c hc]) (by simp [isResetLine, hb])
    have := load_function_after fs path text A [c, b] B f hfile hlines h.1 hf
    rw [h.2] at this
    exact this

theorem loadDefinitions_doc_before_function_witness :
    (∃ fullName, funcMatch (trim "function a.b(x)".toList) = some fullName ∧
      loadDefinitions (fun _ => some (.file "---  Adds\t\r\nfunction a.b(x)".toList)) [] =
        .ok (scanFrom [] [] ++
          { name := displayName fullName, kind := .Function, detail := apiDetail ++ fullName,
            documentation := some "Adds".toList } :: scanFrom [] [])) ∧
    (∃ fullName, funcMatch (trim "function a.b(x)".toList) = some fullName ∧
      loadDefinitions (fun _ => some (.file "---  Adds\t\r\n \nfunction a.b(x)".toList)) [] =
        .ok (scanFrom [] [] ++
          { name := displayName fullName, kind := .Function, detail := apiDetail ++ fullName,
            documentation := some [] } :: scanFrom [] [])) :=
  ⟨(loadDefinitions_doc_before_function
      (fun _ => some (.file "---  Adds\t\r\nfunction a.b(x)".toList)) []
      "---  Adds\t\r\nfunction a.b(x)".toList [] [] "---  Adds\t\r".toList
      "function a.b(x)".toList rfl (by decide) (by decide)).1 (by decide),
   (loadDefinitions_doc_before_function
      (fun _ => some (.file "---  Adds\t\r\n \nfunction a.b(x)".toList)) []
      "---  Adds\t\r\n \nfunction a.b(x)".toList [] [] "---  Adds\t\r".toList
      "function a.b(x)".toList rfl (by decide) (by decide)).2 " ".toList (by decide) (by decide)⟩

/-- C6. In a file where a documentation-comment line is followed by a line that is
blank or begins with `---@meta`, itself followed by a function declaration line, the
record emitted for that function has the empty string as documentation. -/
theorem loadDefinitions_reset_before_function (fs : FileSystem) (path text : Str)
    (A B : List Str) (c m f : Str) (hfile : fs path = some (.file text))
    (hlines : linesOf text = A ++ c :: m :: f :: B)
    (hc : isDocLine c = true) (hm : isResetLine m = true) (hf : isFunctionLine f = true) :
    ∃ fullName, funcMatch (trim f) = some fullName ∧
      loadDefinitions fs path = .ok (scanFrom [] A ++
        { name := displayName fullName, kind := .Function, detail := apiDetail ++ fullName,
          documentation := some [] } :: scanFrom [] B) := by
  have h := scanFrom_then_reset (docAfter [] A) c m (by rw [scanLine_doc _ c hc]) hm
  have := load_function_after fs path text A [c, m] B f hfile hlines h.1 hf
  rw [h.2] at this
  exact this

theorem loadDefinitions_reset_before_function_witness :
    ∃ fullName, funcMatch (trim "function f()".toList) = some fullName ∧
      loadDefinitions (fun _ => some (.file "--- Doc\n---@meta\nfunction f()".toList)) [] =
        .ok (scanFrom [] [] ++
          { name := displayName fullName, kind := .Function, detail := apiDetail ++ fullName,
            documentation := some [] } :: scanFrom [] []) :=
  loadDefinitions_reset_before_function
    (fun _ => some (.file "--- Doc\n---@meta\nfunction f()".toList)) []
    "--- Doc\n---@meta\nfunction f()".toList [] [] "--- Doc".toList "---@meta".toList
    "function f()".toList rfl (by decide) (by decide) (by decide) (by decide)

theorem trimEnd_append_ws (s w : Str) (hw : ∀ c ∈ w, isWs c = true) :
    trimEnd (s ++ w) = trimEnd s := by
  induction s with
  | nil => rw [List.nil_append, trimEnd_allWs w hw]; rfl
  | cons c s ih => rw [List.cons_append, trimEnd, ih, trimEnd]

/-- A text split on a separator it begins with, when the rest lacks the first
character of the separator: an empty piece and the rest. -/
theorem split_marker_prefix (h : Char) (t rest : Str) (hrest : h ∉ rest) :
    split ((h :: t) ++ rest) (h :: t) = [[], rest] := by
  unfold split
  rw [List.cons_append, splitAux, if_pos (by
    have := startsWith_append_self (h :: t) rest
    rwa [List.cons_append] at this)]
  have hl : (h :: t).length - 1 = t.length := by simp
  rw [hl, splitAux_skip, splitAux_no_head h t rest hrest]

theorem classMarker_cons : classMarker = '-' :: ['-', '-', '@', 'c', 'l', 'a', 's', 's'] := rfl

theorem isWord_trimEnd (pre s : Str) (h : isWord s = true) : trimEnd (pre ++ s) = pre ++ s := by
  obtain ⟨init, z, rfl⟩ : ∃ init z, s = init ++ [z] := by
    rcases List.eq_nil_or_concat s with h0 | ⟨init, z, h1⟩
    · exact absurd h0 (isWord_ne_nil h)
    · exact ⟨init, z, by simpa using h1⟩
  have hz : isWs z = false := isWordChar_not_ws (isWord_mem h z (by simp))
  rw [← List.append_assoc, trimEnd_append_cons _ [] hz]
  rfl

/-- The loop body on a line `---@class N extends B` without the function pattern. -/
theorem scanLine_class_decl (d raw N Bs : Str)
    (hraw : trim raw = classMarker ++ ' ' :: (N ++ (" extends ".toList ++ Bs)))
    (hN : isWord N = true) (hB : isWord Bs = true) (hnf : funcMatch (trim raw) = none) :
    scanLine d raw =
      (some { name := N, kind := .Class, detail := typeDetail ++ N, documentation := none },
       d) := by
  have hr : isResetLine raw = false := by
    rw [isResetLine, hraw]; rfl
  have hdoc : isDocLine raw = false := by
    rw [isDocLine, hraw]; rfl
  have hinc : includes (trim raw) classMarker = true := by
    rw [hraw]
    exact includes_of_startsWith _ _ (startsWith_append_self _ _)
  have hdash : '-' ∉ ' ' :: (N ++ (" extends ".toList ++ Bs)) := by
    intro hm
    simp only [List.mem_cons, List.mem_append] at hm
    rcases hm with hm | hm | hm | hm
    · exact absurd hm (by decide)
    · exact absurd (isWord_mem hN _ hm) (by decide)
    · revert hm; decide
    · exact absurd (isWord_mem hB _ hm) (by decide)
  obtain ⟨n, ns, rfl⟩ : ∃ n ns, N = n :: ns := by
    cases N with
    | nil => exact absurd rfl (isWord_ne_nil hN)
    | cons n ns => exact ⟨n, ns, rfl⟩
  have hn : isWs n = false := isWordChar_not_ws (isWord_mem hN n (List.mem_cons_self _ _))
  have htrim : trim (' ' :: ((n :: ns) ++ (" extends ".toList ++ Bs))) =
      (n :: ns) ++ ' ' :: ("extends ".toList ++ Bs) := by
    unfold trim
    rw [trimStart_cons_ws _ (by decide), List.cons_append, trimStart_cons_nonws _ hn,
      ← List.cons_append, ← List.append_assoc, isWord_trimEnd _ Bs hB]
    simp
  have hsp : ' ' ∉ n :: ns := fun hm => absurd (isWord_mem hN _ hm) (by decide)
  have hcls : classNameOf (trim raw) = some (n :: ns) := by
    rw [classNameOf, hraw, classMarker_cons, split_marker_prefix _ _ _ hdash]
    simp only [List.get?, Option.map]
    rw [htrim, split_headD_single _ ' ' _ hsp]
  rw [scanLine_other d raw hr hdoc hnf, if_pos hinc, hcls]

/-- C4. For non-empty names `N` and `B` of letters, digits and underscores, a line of a
file whose trimmed text is `---@class N extends B` and holds no function-declaration
pattern makes `loadDefinitions` emit exactly one record for that line: name `N`, kind
Class, detail `Potassium Type: ` followed by `N`, no documentation; the pending
documentation is handed unchanged to the following lines. -/
theorem loadDefinitions_class_decl (fs : FileSystem) (path text : Str) (A B : List Str)
    (raw N Bs : Str) (hfile : fs path = some (.file text))
    (hlines : linesOf text = A ++ raw :: B)
    (hraw : trim raw = classMarker ++ ' ' :: (N ++ (" extends ".toList ++ Bs)))
    (hN : isWord N = true) (hB : isWord Bs = true) (hnf : funcMatch (trim raw) = none) :
    loadDefinitions fs path = .ok (scanFrom [] A ++
      { name := N, kind := .Class, detail := typeDetail ++ N, documentation := none } ::
        scanFrom (docAfter [] A) B) := by
  rw [load_at_line fs path text A B raw hfile hlines,
    scanLine_class_decl (docAfter [] A) raw N Bs hraw hN hB hnf]
  rfl

theorem loadDefinitions_class_decl_witness :
    loadDefinitions (fun _ => some (.file "--- d\n  ---@class Foo extends Bar\t\nfunction f()".toList)) [] =
      .ok [ { name := "Foo".toList, kind := .Class, detail := "Potassium Type: Foo".toList,
              documentation := none },
            { name := "f".toList, kind := .Function, detail := "Potassium API: f".toList,
              documentation := some "d".toList } ] :=
  loadDefinitions_class_decl
    (fun _ => some (.file "--- d\n  ---@class Foo extends Bar\t\nfunction f()".toList)) []
    "--- d\n  ---@class Foo extends Bar\t\nfunction f()".toList ["--- d".toList]
    ["function f()".toList] "  ---@class Foo extends Bar\t".toList "Foo".toList "Bar".toList
    rfl (by decide) (by decide) (by decide) (by decide) (by decide)

theorem commentMarker_eq : commentMarker = ['-', '-'] := rfl

/-- A name without white space that does not begin with `--`, followed by a space:
the text does not begin with `--` either. -/
theorem startsWith_comment_name (V X : Str) (hne : V ≠ []) (hws : ∀ c ∈ V, isWs c = false)
    (hV : startsWith V commentMarker = false) :
    startsWith (V ++ ' ' :: X) commentMarker = false := by
  rw [commentMarker_eq] at hV ⊢
  cases V with
  | nil => exact absurd rfl hne
  | cons a V =>
    cases V with
    | nil =>
      rw [List.cons_append, List.nil_append, startsWith_cons_cons,
        startsWith_cons_ne _ _ (by decide)]
      simp
    | cons b V =>
      simp only [List.cons_append, startsWith_cons_cons, startsWith_nil] at hV ⊢
      exact hV

theorem trim_assignment (V R : Str) (hne : V ≠ []) (hws : ∀ c ∈ V, isWs c = false) :
    trim (V ++ (" = ".toList ++ R)) = V ++ ' ' :: '=' :: trimEnd (' ' :: R) := by
  obtain ⟨v, vs, rfl⟩ : ∃ v vs, V = v :: vs := by
    cases V with
    | nil => exact absurd rfl hne
    | cons v vs => exact ⟨v, vs, rfl⟩
  unfold trim
  rw [List.cons_append, trimStart_cons_nonws _ (hws v (List.mem_cons_self _ _))]
  have : v :: (vs ++ (" = ".toList ++ R)) = (v :: vs ++ [' ']) ++ '=' :: (' ' :: R) := by
    simp
  rw [this, trimEnd_append_cons _ _ (by decide)]
  simp

theorem trim_name_space (V : Str) (hne : V ≠ []) (hws : ∀ c ∈ V, isWs c = false) :
    trim (V ++ [' ']) = V := by
  obtain ⟨v, vs, rfl⟩ : ∃ v vs, V = v :: vs := by
    cases V with
    | nil => exact absurd rfl hne
    | cons v vs => exact ⟨v, vs, rfl⟩
  unfold trim
  rw [List.cons_append, trimStart_cons_nonws _ (hws v (List.mem_cons_self _ _)),
    ← List.cons_append, trimEnd_append_ws _ _ (by intro c hc; rw [List.mem_singleton.1 hc]; decide),
    trimEnd_noWs _ hws]

/-- The loop body on a line `V = R`. -/
theorem scanLine_assignment (d raw V R : Str) (hne : V ≠ [])
    (hws : ∀ c ∈ V, isWs c = false) (heq : '=' ∉ V)
    (hV : startsWith V commentMarker = false)
    (hraw : trim raw = trim (V ++ (" = ".toList ++ R)))
    (hnf : funcMatch (V ++ (" = ".toList ++ R)) = none)
    (hnc : includes (V ++ (" = ".toList ++ R)) classMarker = false) :
    scanLine d raw =
      (some { name := V, kind := .Variable, detail := globalDetail, documentation := none },
       d) := by
  have hline := trim_assignment V R hne hws
  have hf : funcMatch (trim raw) = none := by
    rw [hraw]; exact funcMatch_trim_none _ hnf
  have hc : includes (trim raw) classMarker = false := by
    rw [hraw]; exact includes_trim_false _ _ hnc
  rw [hline] at hraw
  have hcm : startsWith (trim raw) commentMarker = false := by
    rw [hraw]; exact startsWith_comment_name V _ hne hws hV
  have hrd := not_reset_not_doc_of_not_comment raw
    (by rw [hraw]; cases V with
      | nil => exact absurd rfl hne
      | cons v vs => simp) hcm
  have hinc : includes (trim raw) ['='] = true := by
    rw [hraw, includes_singleton]; simp
  have hvar : varNameOf (trim raw) = V := by
    have hsp : '=' ∉ V ++ [' '] := by
      intro hm
      rcases List.mem_append.1 hm with hm | hm
      · exact heq hm
      · revert hm; decide
    have : V ++ ' ' :: '=' :: trimEnd (' ' :: R) = (V ++ [' ']) ++ '=' :: trimEnd (' ' :: R) := by
      simp
    rw [varNameOf, hraw, this, split_headD_single _ '=' _ hsp, trim_name_space V hne hws]
  have h1 : (V != []) = true := by simpa using hne
  have h2 : includes V [' '] = false :=
    (includes_singleton_false V ' ').2 (fun hm => absurd (hws _ hm) (by decide))
  have h3 : startsWith V docMarker = false := by
    cases h : startsWith V docMarker with
    | false => rfl
    | true =>
      rw [docMarker_eq] at h
      rw [startsWith_of_append _ _ _ h] at hV
      cases hV
  rw [scanLine_other d raw hrd.1 hrd.2 hf, if_neg (by rw [hc]; decide),
    if_pos (by rw [hinc, hcm]; rfl), hvar, if_pos (by rw [h1, h2, h3]; rfl)]

/-- The loop body on a line whose trimmed text begins with `--` pushes no Variable
record. -/
theorem scanLine_comment_no_variable (d raw : Str)
    (hcm : startsWith (trim raw) commentMarker = true) :
    ∀ item, (scanLine d raw).1 = some item → item.kind ≠ .Variable := by
  intro item hitem
  by_cases hr : isResetLine raw = true
  · rw [scanLine_reset d raw hr] at hitem; cases hitem
  by_cases hdoc : isDocLine raw = true
  · rw [scanLine_doc d raw hdoc] at hitem; cases hitem
  cases hf : funcMatch (trim raw) with
  | some fullName =>
    have hfl : isFunctionLine raw = true := by
      simp [isFunctionLine, hr, hdoc, hf]
    obtain ⟨fn, _, hs⟩ := scanLine_function d raw hfl
    rw [hs] at hitem
    cases hitem
    simp
  | none =>
    rw [scanLine_other d raw (by simpa using hr) (by simpa using hdoc) hf] at hitem
    split at hitem
    · split at hitem
      · cases hitem; simp
      · cases hitem
    · rw [hcm] at hitem
      simp at hitem

/-- C5. A line `V = R` of a file, with `V` non-empty, free of white space and of `=`,
not beginning with `--`, and the line free of the function pattern and of `---@class`,
makes `loadDefinitions` emit exactly one record for that line: name `V`, kind
Variable, detail `Potassium Global`.  A line whose trimmed text begins with `--`
contributes no Variable record. -/
theorem loadDefinitions_variable (fs : FileSystem) (path text : Str) (A B : List Str)
    (raw : Str) (hfile : fs path = some (.file text))
    (hlines : linesOf text = A ++ raw :: B) :
    (∀ V R : Str, V ≠ [] → (∀ c ∈ V, isWs c = false) → '=' ∉ V →
      startsWith V commentMarker = false →
      trim raw = trim (V ++ (" = ".toList ++ R)) →
      funcMatch (V ++ (" = ".toList ++ R)) = none →
      includes (V ++ (" = ".toList ++ R)) classMarker = false →
      loadDefinitions fs path = .ok (scanFrom [] A ++
        { name := V, kind := .Variable, detail := globalDetail, documentation := none } ::
          scanFrom (docAfter [] A) B)) ∧
    (startsWith (trim raw) commentMarker = true →
      loadDefinitions fs path = .ok (scanFrom [] A ++
        ((scanLine (docAfter [] A) raw).1.toList ++
          scanFrom (scanLine (docAfter [] A) raw).2 B)) ∧
      ∀ item, (scanLine (docAfter [] A) raw).1 = some item → item.kind ≠ .Variable) := by
  constructor
  · intro V R hne hws heq hV hraw hnf hnc
    rw [load_at_line fs path text A B raw hfile hlines,
      scanLine_assignment (docAfter [] A) raw V R hne hws heq hV hraw hnf hnc]
    rfl
  · intro hcm
    exact ⟨load_at_line fs path text A B raw hfile hlines,
      scanLine_comment_no_variable _ raw hcm⟩

theorem loadDefinitions_variable_witness :
    loadDefinitions (fun _ => some (.file "MyGlobal = something".toList)) [] =
        .ok [ { name := "MyGlobal".toList, kind := .Variable,
                detail := "Potassium Global".toList, documentation := none } ] ∧
    loadDefinitions (fun _ => some (.file "-- MyGlobal = something".toList)) [] = .ok [] :=
  ⟨(loadDefinitions_variable (fun _ => some (.file "MyGlobal = something".toList)) []
      "MyGlobal = something".toList [] [] "MyGlobal = something".toList rfl (by decide)).1
      "MyGlobal".toList "something".toList (by decide) (by decide) (by decide) (by decide)
      (by decide) (by decide) (by decide),
   ((loadDefinitions_variable (fun _ => some (.file "-- MyGlobal = something".toList)) []
      "-- MyGlobal = something".toList [] [] "-- MyGlobal = something".toList rfl
      (by decide)).2 (by decide)).1⟩

/-! ## Properties of every record -/

/-- A property of every record the loop body can push holds of every record of a
scan. -/
theorem scanFrom_forall (P : Item → Prop)
    (hP : ∀ d raw item, (scanLine d raw).1 = some item → P item) :
    ∀ (lines : List Str) (d : Str), ∀ item ∈ scanFrom d lines, P item := by
  intro lines
  induction lines with
  | nil => intro d item hitem; cases hitem
  | cons raw rest ih =>
    intro d item hitem
    rw [scanFrom_cons, List.mem_append] at hitem
    rcases hitem with hitem | hitem
    · exact hP d raw item (by simpa [Option.mem_toList] using hitem)
    · exact ih _ item hitem

theorem loadDefinitions_forall (P : Item → Prop)
    (hP : ∀ d raw item, (scanLine d raw).1 = some item → P item)
    (fs : FileSystem) (path : Str) (items : List Item)
    (h : loadDefinitions fs path = .ok items) : ∀ item ∈ items, P item := by
  rw [loadDefinitions_eq] at h
  cases hfs : fs path with
  | none =>
    rw [hfs] at h
    cases h
    intro item hitem
    cases hitem
  | some entry =>
    rw [hfs] at h
    cases entry with
    | unreadable => cases h
    | file rawData =>
      cases h
      exact scanFrom_forall P hP _ _

/-- The names pushed by the loop body hold no space character, and the names of
Function records hold no white space at all. -/
theorem scanLine_name_no_space (d raw : Str) (item : Item)
    (hitem : (scanLine d raw).1 = some item) :
    ' ' ∉ item.name ∧ (item.kind = .Function → ∀ c ∈ item.name, isWs c = false) := by
  by_cases hr : isResetLine raw = true
  · rw [scanLine_reset d raw hr] at hitem; cases hitem
  by_cases hdoc : isDocLine raw = true
  · rw [scanLine_doc d raw hdoc] at hitem; cases hitem
  cases hf : funcMatch (trim raw) with
  | some fullName =>
    have hfl : isFunctionLine raw = true := by
      simp [isFunctionLine, hr, hdoc, hf]
    obtain ⟨fn, hfn, hs⟩ := scanLine_function d raw hfl
    rw [hs] at hitem
    cases hitem
    have hall : ∀ c ∈ displayName fn, isWs c = false := fun c hc =>
      isIdentChar_not_ws ((funcMatch_mem hfn).2 c (displayName_mem fn c hc))
    exact ⟨fun hm => absurd (hall _ hm) (by decide), fun _ => hall⟩
  | none =>
    rw [scanLine_other d raw (by simpa using hr) (by simpa using hdoc) hf] at hitem
    split at hitem
    · split at hitem
      · rename_i c cs hcls
        cases hitem
        refine ⟨?_, fun hk => by cases hk⟩
        unfold classNameOf at hcls
        cases hg : (split (trim raw) classMarker).get? 1 with
        | none => rw [hg] at hcls; cases hcls
        | some s =>
          rw [hg] at hcls
          simp only [Option.map, Option.some.injEq] at hcls
          show ' ' ∉ c :: cs
          rw [← hcls]
          exact split_headD_not_mem _ ' '
      · cases hitem
    · split at hitem
      · split at hitem
        · rename_i hcond
          cases hitem
          refine ⟨?_, fun hk => by cases hk⟩
          simp only [Bool.and_eq_true, Bool.not_eq_true'] at hcond
          exact (includes_singleton_false _ ' ').1 hcond.1.2
        · cases hitem
      · cases hitem

/-! ## Missing files, the worked example -/

/-- C3. For every path that resolves to nothing in the file system (`fs.existsSync`
is false), whatever the path string, `loadDefinitions` returns the empty sequence and
raises nothing. -/
theorem loadDefinitions_missing (fs : FileSystem) (targetPath : Str)
    (h : existsSync fs targetPath = false) : loadDefinitions fs targetPath = .ok [] := by
  unfold loadDefinitions
  rw [h]
  rfl

theorem loadDefinitions_missing_witness :
    loadDefinitions (fsOfList [("ext/api.d.lua".toList, "x = 1".toList)])
      "ext/globals.d.lua".toList = .ok [] :=
  loadDefinitions_missing _ _ (by decide)

/-- C8. On a file whose lines are `---@meta`, the empty line, `--- Creates a widget`,
`function Widget.new(x)`, `---@class Widget` and `SomeGlobal = 5`, `loadDefinitions`
returns exactly three records, in this order: the Function `new` with detail
`Potassium API: Widget.new` and documentation `Creates a widget`, the Class `Widget`
with detail `Potassium Type: Widget` and no documentation, the Variable `SomeGlobal`
with detail `Potassium Global` and no documentation. -/
theorem loadDefinitions_example (fs : FileSystem) (path text : Str)
    (hfile : fs path = some (.file text))
    (hlines : linesOf text =
      [ "---@meta".toList, [], "--- Creates a widget".toList,
        "function Widget.new(x)".toList, "---@class Widget".toList,
        "SomeGlobal = 5".toList ]) :
    loadDefinitions fs path = .ok
      [ { name := "new".toList, kind := .Function,
          detail := "Potassium API: Widget.new".toList,
          documentation := some "Creates a widget".toList },
        { name := "Widget".toList, kind := .Class,
          detail := "Potassium Type: Widget".toList, documentation := none },
        { name := "SomeGlobal".toList, kind := .Variable,
          detail := "Potassium Global".toList, documentation := none } ] := by
  rw [load_file fs path text hfile, hlines]
  exact congrArg Except.ok (by decide)

theorem loadDefinitions_example_witness :
    loadDefinitions (fsOfList [("api.d.lua".toList, exampleText)]) "api.d.lua".toList = .ok
      [ { name := "new".toList, kind := .Function,
          detail := "Potassium API: Widget.new".toList,
          documentation := some "Creates a widget".toList },
        { name := "Widget".toList, kind := .Class,
          detail := "Potassium Type: Widget".toList, documentation := none },
        { name := "SomeGlobal".toList, kind := .Variable,
          detail := "Potassium Global".toList, documentation := none } ] :=
  loadDefinitions_example _ _ exampleText (by decide) (by decide)

/-! ## Names of the records -/

/-- C9 (failing input). On the one-line file `function Widget.` the function branch
captures the full name `Widget.`, splits it on the dot and pushes a record whose
name, the last piece, is the empty string. -/
theorem loadDefinitions_empty_function_name :
    loadDefinitions (fsOfList [("api.d.lua".toList, "function Widget.".toList)])
      "api.d.lua".toList =
    .ok [ { name := [], kind := .Function, detail := "Potassium API: Widget.".toList,
            documentation := some [] } ] := by
  rfl

/-- C10 (as stated, refuted). On the one-line file made of `---@class Foo`, a tab and
`Bar`, the record name is `Foo`, the tab and `Bar`: a name with a white-space
character in it. -/
theorem loadDefinitions_name_tab_counterexample :
    ∃ items, loadDefinitions (fsOfList [("api.d.lua".toList, "---@class Foo\tBar".toList)])
        "api.d.lua".toList = .ok items ∧
      ∃ item ∈ items, item.name = "Foo\tBar".toList ∧ ∃ c ∈ item.name, isWs c = true :=
  ⟨[ { name := "Foo\tBar".toList, kind := .Class, detail := "Potassium Type: Foo\tBar".toList,
       documentation := none } ], by rfl, _, List.mem_singleton_self _, rfl, '\t', by decide,
    by decide⟩

/-- C10 (amended). The name of every record returned by `loadDefinitions` holds no
space character U+0020, and the name of every Function record holds no white-space
character at all: a class name is the token up to the first space after the
`---@class` marker, and a variable name is emitted only when it holds no space. -/
theorem loadDefinitions_name_no_space (fs : FileSystem) (path : Str) (items : List Item)
    (h : loadDefinitions fs path = .ok items) :
    ∀ item ∈ items,
      ' ' ∉ item.name ∧ (item.kind = .Function → ∀ c ∈ item.name, isWs c = false) :=
  loadDefinitions_forall _ (fun d raw item hi => scanLine_name_no_space d raw item hi)
    fs path items h

theorem loadDefinitions_name_no_space_witness :
    ' ' ∉ "new".toList ∧
      (CompletionItemKind.Function = CompletionItemKind.Function →
        ∀ c ∈ "new".toList, isWs c = false) :=
  loadDefinitions_name_no_space
    (fsOfList [("api.d.lua".toList, "---@class Foo\tBar baz\nfunction W.new()".toList)])
    "api.d.lua".toList
    [ { name := "Foo\tBar".toList, kind := .Class,
        detail := "Potassium Type: Foo\tBar".toList, documentation := none },
      { name := "new".toList, kind := .Function,
        detail := "Potassium API: W.new".toList, documentation := some [] } ]
    (by rfl)
    { name := "new".toList, kind := .Function,
      detail := "Potassium API: W.new".toList, documentation := some [] }
    (List.mem_cons_of_mem _ (List.mem_singleton_self _))

/-! ## How the pending documentation moves -/

theorem funcMatch_none_of_other (m : Str) (h : isOtherLine m = true) :
    isResetLine m = false ∧ isDocLine m = false ∧ funcMatch (trim m) = none := by
  simp only [isOtherLine, Bool.and_eq_true, Bool.not_eq_true'] at h
  obtain ⟨⟨hr, hdoc⟩, hf⟩ := h
  refine ⟨hr, hdoc, ?_⟩
  cases hm : funcMatch (trim m) with
  | none => rfl
  | some r => simp [isFunctionLine, hr, hdoc, hm] at hf

theorem isFunctionLine_not_doc (f : Str) (h : isFunctionLine f = true) :
    isResetLine f = false ∧ isDocLine f = false := by
  simp only [isFunctionLine, Bool.and_eq_true, Bool.not_eq_true'] at h
  exact ⟨h.1.1, h.1.2⟩

theorem scanLine_snd_other (d m : Str) (h : isOtherLine m = true) : (scanLine d m).2 = d := by
  obtain ⟨hr, hdoc, hf⟩ := funcMatch_none_of_other m h
  rw [scanLine_other d m hr hdoc hf]
  split
  · split <;> rfl
  · split
    · split <;> rfl
    · rfl

theorem scanLine_snd_function (d f : Str) (h : isFunctionLine f = true) :
    (scanLine d f).2 = [] := by
  obtain ⟨fullName, _, hs⟩ := scanLine_function d f h
  rw [hs]

theorem scanLine_snd_reset (d m : Str) (h : isResetLine m = true) : (scanLine d m).2 = [] := by
  rw [scanLine_reset d m h]

theorem scanLine_snd_doc (d c : Str) (h : isDocLine c = true) : (scanLine d c).2 = docText c := by
  rw [scanLine_doc d c h]
  rfl

/-- Every line is a reset line, a documentation comment, a function declaration
line or a line of another kind. -/
theorem line_kind (m : Str) :
    isResetLine m = true ∨ isDocLine m = true ∨ isFunctionLine m = true ∨
      isOtherLine m = true := by
  unfold isOtherLine
  cases isResetLine m <;> cases isDocLine m <;> cases isFunctionLine m <;> simp

theorem docAfter_concat (d : Str) (A : List Str) (x : Str) :
    docAfter d (A ++ [x]) = (scanLine (docAfter d A) x).2 := by
  rw [docAfter_append]
  rfl

theorem docAfter_other (d : Str) (M : List Str) (h : ∀ m ∈ M, isOtherLine m = true) :
    docAfter d M = d := by
  induction M generalizing d with
  | nil => rfl
  | cons m M ih =>
    rw [docAfter, scanLine_snd_other d m (h m (List.mem_cons_self _ _))]
    exact ih d (fun x hx => h x (List.mem_cons_of_mem _ hx))

/-- Where the pending documentation after the lines `A` comes from: it is the
starting value and all lines are of the other kind; or it is empty, after a reset or
function line followed by lines of the other kind; or it is the stripped text of a
documentation comment followed by lines of the other kind. -/
theorem docAfter_cases (d : Str) (A : List Str) :
    (docAfter d A = d ∧ ∀ m ∈ A, isOtherLine m = true) ∨
    (docAfter d A = [] ∧ ∃ P r M, A = P ++ r :: M ∧
      (isResetLine r = true ∨ isFunctionLine r = true) ∧ ∀ m ∈ M, isOtherLine m = true) ∨
    (∃ P c M, A = P ++ c :: M ∧ isDocLine c = true ∧ (∀ m ∈ M, isOtherLine m = true) ∧
      docAfter d A = docText c) := by
  induction A using List.reverseRecOn with
  | nil => exact Or.inl ⟨rfl, fun m hm => absurd hm (List.not_mem_nil m)⟩
  | append_singleton A x ih =>
    rw [docAfter_concat]
    rcases line_kind x with hx | hx | hx | hx
    · exact Or.inr (Or.inl ⟨scanLine_snd_reset _ x hx, A, x, [], rfl, Or.inl hx,
        fun m hm => absurd hm (List.not_mem_nil m)⟩)
    · exact Or.inr (Or.inr ⟨A, x, [], rfl, hx, fun m hm => absurd hm (List.not_mem_nil m),
        scanLine_snd_doc _ x hx⟩)
    · exact Or.inr (Or.inl ⟨scanLine_snd_function _ x hx, A, x, [], rfl, Or.inr hx,
        fun m hm => absurd hm (List.not_mem_nil m)⟩)
    · rw [scanLine_snd_other _ x hx]
      rcases ih with ⟨h1, h2⟩ | ⟨h1, P, r, M, rfl, hr, hM⟩ | ⟨P, c, M, rfl, hc, hM, h1⟩
      · refine Or.inl ⟨h1, fun m hm => ?_⟩
        rcases List.mem_append.1 hm with hm | hm
        · exact h2 m hm
        · rw [List.mem_singleton.1 hm]; exact hx
      · refine Or.inr (Or.inl ⟨h1, P, r, M ++ [x], by simp, hr, fun m hm => ?_⟩)
        rcases List.mem_append.1 hm with hm | hm
        · exact hM m hm
        · rw [List.mem_singleton.1 hm]; exact hx
      · refine Or.inr (Or.inr ⟨P, c, M ++ [x], by simp, hc, fun m hm => ?_, h1⟩)
        rcases List.mem_append.1 hm with hm | hm
        · exact hM m hm
        · rw [List.mem_singleton.1 hm]; exact hx

/-- Without a documentation comment among the lines, an empty pending documentation
stays empty. -/
theorem docAfter_nil_of_no_doc (M : List Str) (h : ∀ m ∈ M, isDocLine m = false) :
    docAfter [] M = [] := by
  rcases docAfter_cases [] M with ⟨h1, _⟩ | ⟨h1, _⟩ | ⟨P, c, M2, rfl, hc, _, _⟩
  · exact h1
  · exact h1
  · rw [h c (by simp)] at hc
    cases hc

theorem isOtherLine_of_not (m : Str) (hr : isResetLine m = false) (hd : isDocLine m = false)
    (hf : isFunctionLine m = false) : isOtherLine m = true := by
  simp [isOtherLine, hr, hd, hf]

theorem isOtherLine_not (m : Str) (h : isOtherLine m = true) :
    isResetLine m = false ∧ isDocLine m = false ∧ isFunctionLine m = false := by
  simp only [isOtherLine, Bool.and_eq_true, Bool.not_eq_true'] at h
  exact ⟨h.1.1, h.1.2, h.2⟩

/-- The record of a function declaration line carries the pending documentation left
by the lines before it. -/
theorem load_function_at (fs : FileSystem) (path text : Str) (A B : List Str) (f : Str)
    (hfile : fs path = some (.file text)) (hlines : linesOf text = A ++ f :: B)
    (hf : isFunctionLine f = true) :
    ∃ fullName, funcMatch (trim f) = some fullName ∧
      loadDefinitions fs path = .ok (scanFrom [] A ++
        { name := displayName fullName, kind := .Function, detail := apiDetail ++ fullName,
          documentation := some (docAfter [] A) } :: scanFrom [] B) :=
  load_function_after fs path text A [] B f hfile hlines rfl hf

/-- The pending documentation after a documentation comment followed by lines that
are neither reset lines nor function lines, when no later comment has this property. -/
theorem docAfter_last_doc (d : Str) (P : List Str) (c : Str) (M : List Str)
    (hc : isDocLine c = true)
    (hM : ∀ m ∈ M, isResetLine m = false ∧ isFunctionLine m = false)
    (hmax : ∀ P2 c2 M2, P ++ c :: M = P2 ++ c2 :: M2 → isDocLine c2 = true →
      (∀ m ∈ M2, isResetLine m = false ∧ isFunctionLine m = false) →
      P2.length ≤ P.length) :
    docAfter d (P ++ c :: M) = docText c := by
  have hother : ∀ m ∈ M, isOtherLine m = true := by
    intro m hm
    refine isOtherLine_of_not m (hM m hm).1 ?_ (hM m hm).2
    cases hd : isDocLine m with
    | false => rfl
    | true =>
      obtain ⟨M1, M2, rfl⟩ := List.append_of_mem hm
      have hlen := hmax (P ++ c :: M1) m M2 (by simp) hd
        (fun x hx => hM x (List.mem_append_right _ (List.mem_cons_of_mem _ hx)))
      simp only [List.length_append, List.length_cons] at hlen
      omega
  rw [docAfter_append, docAfter, scanLine_snd_doc _ c hc]
  exact docAfter_other _ M hother

/-- C11 (as stated, refuted). On the three-line file `--- doc`, `x = 1`,
`function f()` the function record carries the documentation `doc`, although the line
immediately before the function line is the assignment `x = 1`, not a documentation
comment. -/
theorem loadDefinitions_doc_not_adjacent_counterexample :
    linesOf "--- doc\nx = 1\nfunction f()".toList =
        ["--- doc".toList, "x = 1".toList, "function f()".toList] ∧
      loadDefinitions (fsOfList [("api.d.lua".toList, "--- doc\nx = 1\nfunction f()".toList)])
        "api.d.lua".toList =
        .ok [ { name := "x".toList, kind := .Variable, detail := globalDetail,
                documentation := none },
              { name := "f".toList, kind := .Function, detail := "Potassium API: f".toList,
                documentation := some "doc".toList } ] ∧
      isDocLine "x = 1".toList = false :=
  ⟨by decide, by rfl, by decide⟩

/-- C11 (amended). When the record of a function declaration line carries a non-empty
documentation, a documentation-comment line stands before the function line, the
documentation is the stripped text of that comment, and every line between the two is
a line of another kind: neither blank, nor a `---@meta` line, nor a documentation
comment, nor a function declaration line. -/
theorem loadDefinitions_doc_source (fs : FileSystem) (path text : Str) (A B : List Str)
    (f : Str) (hfile : fs path = some (.file text)) (hlines : linesOf text = A ++ f :: B)
    (hf : isFunctionLine f = true) :
    ∃ fullName, funcMatch (trim f) = some fullName ∧
      loadDefinitions fs path = .ok (scanFrom [] A ++
        { name := displayName fullName, kind := .Function, detail := apiDetail ++ fullName,
          documentation := some (docAfter [] A) } :: scanFrom [] B) ∧
      (docAfter [] A ≠ [] →
        ∃ P c M, A = P ++ c :: M ∧ isDocLine c = true ∧ docAfter [] A = docText c ∧
          ∀ m ∈ M, isOtherLine m = true) := by
  obtain ⟨fullName, hm, hload⟩ := load_function_at fs path text A B f hfile hlines hf
  refine ⟨fullName, hm, hload, fun hne => ?_⟩
  rcases docAfter_cases [] A with ⟨h1, _⟩ | ⟨h1, _⟩ | ⟨P, c, M, hA, hc, hM, h1⟩
  · exact absurd h1 hne
  · exact absurd h1 hne
  · exact ⟨P, c, M, hA, hc, h1, hM⟩

theorem loadDefinitions_doc_source_witness :
    ∃ fullName, funcMatch (trim "function f()".toList) = some fullName ∧
      loadDefinitions (fsOfList [("api.d.lua".toList, "--- doc\nx = 1\nfunction f()".toList)])
          "api.d.lua".toList =
        .ok (scanFrom [] ["--- doc".toList, "x = 1".toList] ++
          { name := displayName fullName, kind := .Function, detail := apiDetail ++ fullName,
            documentation := some (docAfter [] ["--- doc".toList, "x = 1".toList]) } ::
            scanFrom [] []) ∧
      (docAfter [] ["--- doc".toList, "x = 1".toList] ≠ [] →
        ∃ P c M, ["--- doc".toList, "x = 1".toList] = P ++ c :: M ∧ isDocLine c = true ∧
          docAfter [] ["--- doc".toList, "x = 1".toList] = docText c ∧
          ∀ m ∈ M, isOtherLine m = true) :=
  loadDefinitions_doc_source
    (fsOfList [("api.d.lua".toList, "--- doc\nx = 1\nfunction f()".toList)])
    "api.d.lua".toList "--- doc\nx = 1\nfunction f()".toList
    ["--- doc".toList, "x = 1".toList] [] "function f()".toList (by decide) (by decide)
    (by decide)

theorem scanFrom_fst_doc (d c : Str) (hc : isDocLine c = true) : (scanLine d c).1 = none := by
  rw [scanLine_doc d c hc]

/-- The scan of a documentation comment, a function declaration line and further
lines: one record for the function, with the stripped comment as documentation, then
the records of the further lines from an empty pending documentation. -/
theorem scanFrom_doc_function (d c f : Str) (M : List Str) (hc : isDocLine c = true)
    (hf : isFunctionLine f = true) :
    ∃ fullName, funcMatch (trim f) = some fullName ∧
      scanFrom d (c :: f :: M) =
        { name := displayName fullName, kind := .Function, detail := apiDetail ++ fullName,
          documentation := some (docText c) } :: scanFrom [] M ∧
      docAfter d (c :: f :: M) = docAfter [] M := by
  obtain ⟨fullName, hm, hs⟩ := scanLine_function (docText c) f hf
  refine ⟨fullName, hm, ?_, ?_⟩
  · rw [scanFrom_cons, scanFrom_fst_doc d c hc, scanLine_snd_doc d c hc, scanFrom_cons, hs]
    rfl
  · rw [docAfter, scanLine_snd_doc d c hc, docAfter, hs]

/-- C15. The record of a function declaration line at position `j` carries as
documentation the stripped text of the last documentation-comment line `i < j` with
no blank line, no `---@meta` line and no function declaration line strictly between
`i` and `j`, and the empty string when there is no such line.  Hence, of two function
declarations after one documentation comment with no comment between them, only the
first carries the documentation. -/
theorem loadDefinitions_function_documentation (fs : FileSystem) (path text : Str)
    (A B : List Str) (f : Str) (hfile : fs path = some (.file text))
    (hlines : linesOf text = A ++ f :: B) (hf : isFunctionLine f = true) :
    ∃ fullName doc, funcMatch (trim f) = some fullName ∧
      loadDefinitions fs path = .ok (scanFrom [] A ++
        { name := displayName fullName, kind := .Function, detail := apiDetail ++ fullName,
          documentation := some doc } :: scanFrom [] B) ∧
      (∀ P c M, A = P ++ c :: M → isDocLine c = true →
        (∀ m ∈ M, isResetLine m = false ∧ isFunctionLine m = false) →
        (∀ P2 c2 M2, A = P2 ++ c2 :: M2 → isDocLine c2 = true →
          (∀ m ∈ M2, isResetLine m = false ∧ isFunctionLine m = false) →
          P2.length ≤ P.length) →
        doc = docText c) ∧
      ((¬ ∃ P c M, A = P ++ c :: M ∧ isDocLine c = true ∧
          ∀ m ∈ M, isResetLine m = false ∧ isFunctionLine m = false) →
        doc = []) ∧
      (∀ P c f1 M, A = P ++ c :: f1 :: M → isDocLine c = true → isFunctionLine f1 = true →
        (∀ m ∈ M, isDocLine m = false) →
        doc = [] ∧
        ∃ name1, funcMatch (trim f1) = some name1 ∧
          scanFrom [] A = scanFrom [] P ++
            { name := displayName name1, kind := .Function, detail := apiDetail ++ name1,
              documentation := some (docText c) } :: scanFrom [] M) := by
  obtain ⟨fullName, hm, hload⟩ := load_function_at fs path text A B f hfile hlines hf
  refine ⟨fullName, docAfter [] A, hm, hload, ?_, ?_, ?_⟩
  · intro P c M hA hc hM hmax
    subst hA
    exact docAfter_last_doc [] P c M hc hM hmax
  · intro hno
    rcases docAfter_cases [] A with ⟨h1, _⟩ | ⟨h1, _⟩ | ⟨P, c, M, hA, hc, hM, _⟩
    · exact h1
    · exact h1
    · exact absurd ⟨P, c, M, hA, hc,
        fun m hm => ⟨(isOtherLine_not m (hM m hm)).1, (isOtherLine_not m (hM m hm)).2.2⟩⟩ hno
  · intro P c f1 M hA hc hf1 hM
    subst hA
    obtain ⟨name1, hn1, hs, hd⟩ := scanFrom_doc_function (docAfter [] P) c f1 M hc hf1
    refine ⟨?_, name1, hn1, ?_⟩
    · rw [docAfter_append, hd]
      exact docAfter_nil_of_no_doc M hM
    · rw [scanFrom_append, hs]

theorem loadDefinitions_function_documentation_witness :
    ∃ fullName doc, funcMatch (trim "function g()".toList) = some fullName ∧
      loadDefinitions
          (fsOfList [("api.d.lua".toList, "--- d\nfunction f()\nfunction g()".toList)])
          "api.d.lua".toList =
        .ok (scanFrom [] ["--- d".toList, "function f()".toList] ++
          { name := displayName fullName, kind := .Function, detail := apiDetail ++ fullName,
            documentation := some doc } :: scanFrom [] []) ∧
      doc = [] ∧
      ∃ name1, funcMatch (trim "function f()".toList) = some name1 ∧
        scanFrom [] ["--- d".toList, "function f()".toList] = scanFrom [] [] ++
          { name := displayName name1, kind := .Function, detail := apiDetail ++ name1,
            documentation := some (docText "--- d".toList) } :: scanFrom [] [] := by
  obtain ⟨fullName, doc, hm, hload, _, _, h3⟩ := loadDefinitions_function_documentation
    (fsOfList [("api.d.lua".toList, "--- d\nfunction f()\nfunction g()".toList)])
    "api.d.lua".toList "--- d\nfunction f()\nfunction g()".toList
    ["--- d".toList, "function f()".toList] [] "function g()".toList (by decide) (by decide)
    (by decide)
  obtain ⟨hdoc, hrest⟩ := h3 [] "--- d".toList "function f()".toList [] rfl (by decide)
    (by decide) (fun m hm => absurd hm (List.not_mem_nil m))
  exact ⟨fullName, doc, hm, hload, hdoc, hrest⟩

/-- C16. When two documentation-comment lines stand one after the other and a function
declaration line follows them at once, the function record carries the stripped text
of the second comment line only; the text of the first is no part of it. -/
theorem loadDefinitions_doc_overwrite (fs : FileSystem) (path text : Str) (A B : List Str)
    (c1 c2 f : Str) (hfile : fs path = some (.file text))
    (hlines : linesOf text = A ++ c1 :: c2 :: f :: B)
    (hc1 : isDocLine c1 = true) (hc2 : isDocLine c2 = true) (hf : isFunctionLine f = true) :
    ∃ fullName, funcMatch (trim f) = some fullName ∧
      loadDefinitions fs path = .ok (scanFrom [] A ++
        { name := displayName fullName, kind := .Function, detail := apiDetail ++ fullName,
          documentation := some (docText c2) } :: scanFrom [] B) := by
  have hM : scanFrom (docAfter [] A) [c1, c2] = [] := by
    rw [scanFrom_cons, scanFrom_fst_doc _ c1 hc1, scanFrom_cons, scanFrom_fst_doc _ c2 hc2]
    rfl
  have hd : docAfter (docAfter [] A) [c1, c2] = docText c2 := by
    rw [docAfter, docAfter, scanLine_snd_doc _ c2 hc2]
    rfl
  have := load_function_after fs path text A [c1, c2] B f hfile hlines hM hf
  rw [hd] at this
  exact this

theorem loadDefinitions_doc_overwrite_witness :
    ∃ fullName, funcMatch (trim "function f()".toList) = some fullName ∧
      loadDefinitions
          (fsOfList [("api.d.lua".toList, "--- first\n--- second\nfunction f()".toList)])
          "api.d.lua".toList =
        .ok (scanFrom [] [] ++
          { name := displayName fullName, kind := .Function, detail := apiDetail ++ fullName,
            documentation := some "second".toList } :: scanFrom [] []) :=
  loadDefinitions_doc_overwrite
    (fsOfList [("api.d.lua".toList, "--- first\n--- second\nfunction f()".toList)])
    "api.d.lua".toList "--- first\n--- second\nfunction f()".toList [] []
    "--- first".toList "--- second".toList "function f()".toList (by decide) (by decide)
    (by decide) (by decide) (by decide)

/-- A function declaration line after the lines `A` and `M`: the records of `A`, the
records of `M`, the record of the function with the pending documentation left by
them, the records of the rest. -/
theorem load_function_after_records (fs : FileSystem) (path text : Str) (A M B : List Str)
    (f : Str) (hfile : fs path = some (.file text))
    (hlines : linesOf text = A ++ (M ++ f :: B)) (hf : isFunctionLine f = true) :
    ∃ fullName, funcMatch (trim f) = some fullName ∧
      loadDefinitions fs path = .ok (scanFrom [] A ++ (scanFrom (docAfter [] A) M ++
        { name := displayName fullName, kind := .Function, detail := apiDetail ++ fullName,
          documentation := some (docAfter (docAfter [] A) M) } :: scanFrom [] B)) := by
  obtain ⟨fullName, hm, hs⟩ := scanLine_function (docAfter (docAfter [] A) M) f hf
  refine ⟨fullName, hm, ?_⟩
  rw [← List.append_assoc] at hlines
  rw [load_at_line fs path text (A ++ M) B f hfile hlines, docAfter_append, hs,
    scanFrom_append]
  simp

theorem isClassLine_other (k : Str) (h : isClassLine k = true) :
    isOtherLine k = true ∧ funcMatch (trim k) = none ∧
      includes (trim k) classMarker = true := by
  simp only [isClassLine, Bool.and_eq_true, Bool.not_eq_true', Option.isNone_iff_eq_none] at h
  obtain ⟨⟨⟨hr, hd⟩, hf⟩, hi⟩ := h
  exact ⟨isOtherLine_of_not k hr hd (by simp [isFunctionLine, hf]), hf, hi⟩

/-- The class branch pushes at most a Class record without documentation. -/
theorem scanLine_class_record (d k : Str) (h : isClassLine k = true) :
    ∀ item, (scanLine d k).1 = some item → item.kind = .Class ∧ item.documentation = none := by
  obtain ⟨ho, hf, hi⟩ := isClassLine_other k h
  obtain ⟨hr, hd, _⟩ := isOtherLine_not k ho
  intro item hitem
  rw [scanLine_other d k hr hd hf, if_pos hi] at hitem
  split at hitem
  · cases hitem
    exact ⟨rfl, rfl⟩
  · cases hitem

/-- C17. The class branch leaves the pending documentation as it is, whether or not it
pushes a record, and its record has no documentation: when a documentation comment is
followed by a `---@class` line and then by a function declaration line, the function
record carries the stripped text of the comment. -/
theorem loadDefinitions_class_keeps_doc (fs : FileSystem) (path text : Str) (A B : List Str)
    (c k f : Str) (hfile : fs path = some (.file text))
    (hlines : linesOf text = A ++ c :: k :: f :: B)
    (hc : isDocLine c = true) (hk : isClassLine k = true) (hf : isFunctionLine f = true) :
    (∀ d, (scanLine d k).2 = d) ∧
    (∀ d item, (scanLine d k).1 = some item →
      item.kind = .Class ∧ item.documentation = none) ∧
    ∃ fullName, funcMatch (trim f) = some fullName ∧
      loadDefinitions fs path = .ok (scanFrom [] A ++ ((scanLine (docText c) k).1.toList ++
        { name := displayName fullName, kind := .Function, detail := apiDetail ++ fullName,
          documentation := some (docText c) } :: scanFrom [] B)) := by
  have hkeep : ∀ d, (scanLine d k).2 = d :=
    fun d => scanLine_snd_other d k (isClassLine_other k hk).1
  refine ⟨hkeep, fun d => scanLine_class_record d k hk, ?_⟩
  obtain ⟨fullName, hm, hload⟩ :=
    load_function_after_records fs path text A [c, k] B f hfile hlines hf
  refine ⟨fullName, hm, ?_⟩
  have hM : scanFrom (docAfter [] A) [c, k] = (scanLine (docText c) k).1.toList := by
    rw [scanFrom_cons, scanFrom_fst_doc _ c hc, scanLine_snd_doc _ c hc, scanFrom_cons]
    simp [scanFrom]
  have hd : docAfter (docAfter [] A) [c, k] = docText c := by
    rw [docAfter, docAfter, scanLine_snd_doc _ c hc, hkeep]
    rfl
  rw [hload, hM, hd]

theorem loadDefinitions_class_keeps_doc_witness :
    loadDefinitions
        (fsOfList [("api.d.lua".toList, "--- Makes it\n---@class Widget\nfunction new()".toList)])
        "api.d.lua".toList =
      .ok [ { name := "Widget".toList, kind := .Class,
              detail := "Potassium Type: Widget".toList, documentation := none },
            { name := "new".toList, kind := .Function,
              detail := "Potassium API: new".toList,
              documentation := some "Makes it".toList } ] := by
  obtain ⟨_, _, fullName, hm, hload⟩ := loadDefinitions_class_keeps_doc
    (fsOfList [("api.d.lua".toList, "--- Makes it\n---@class Widget\nfunction new()".toList)])
    "api.d.lua".toList "--- Makes it\n---@class Widget\nfunction new()".toList [] []
    "--- Makes it".toList "---@class Widget".toList "function new()".toList (by decide)
    (by decide) (by decide) (by decide) (by decide)
  have hfn : fullName = "new".toList := by
    have : funcMatch (trim "function new()".toList) = some "new".toList := by decide
    rw [this] at hm
    exact (Option.some.inj hm).symm
  subst hfn
  rw [hload]
  rfl

/-! ## Comment lines, totality -/

/-- The loop body on a line that begins with `--` and lacks `---@class`: a record is
pushed exactly when the line is a function declaration line, and it is a Function
record. -/
theorem scanLine_comment_line (d raw : Str)
    (hcm : startsWith (trim raw) commentMarker = true)
    (hnc : includes (trim raw) classMarker = false) :
    ((scanLine d raw).1 = none ↔ isFunctionLine raw = false) ∧
      ∀ item, (scanLine d raw).1 = some item → item.kind = .Function := by
  rcases line_kind raw with h | h | h | h
  · have hf : isFunctionLine raw = false := by simp [isFunctionLine, h]
    rw [scanLine_reset d raw h]
    exact ⟨⟨fun _ => hf, fun _ => rfl⟩, fun item hi => by cases hi⟩
  · have hf : isFunctionLine raw = false := by simp [isFunctionLine, h]
    rw [scanLine_doc d raw h]
    exact ⟨⟨fun _ => hf, fun _ => rfl⟩, fun item hi => by cases hi⟩
  · obtain ⟨fullName, _, hs⟩ := scanLine_function d raw h
    rw [hs]
    refine ⟨⟨fun hn => Option.noConfusion hn, fun hf => ?_⟩, fun item hi => ?_⟩
    · rw [h] at hf; cases hf
    · cases hi
      rfl
  · obtain ⟨hr, hd, hfl⟩ := isOtherLine_not raw h
    obtain ⟨_, _, hf⟩ := funcMatch_none_of_other raw h
    rw [scanLine_other d raw hr hd hf, if_neg (by rw [hnc]; decide),
      if_neg (by rw [hcm]; simp)]
    exact ⟨⟨fun _ => hfl, fun _ => rfl⟩, fun item hi => by cases hi⟩

/-- C12 (as stated, refuted). The one-line file `-- see function foo` is an ordinary
line comment without `---@class`, and `loadDefinitions` emits the Function record
`foo` for it. -/
theorem loadDefinitions_comment_function_counterexample :
    startsWith (trim "-- see function foo".toList) commentMarker = true ∧
      includes (trim "-- see function foo".toList) classMarker = false ∧
      loadDefinitions (fsOfList [("api.d.lua".toList, "-- see function foo".toList)])
        "api.d.lua".toList =
        .ok [ { name := "foo".toList, kind := .Function,
                detail := "Potassium API: foo".toList, documentation := some [] } ] :=
  ⟨by decide, by decide, by rfl⟩

/-- C12 (amended). For a line of a file whose trimmed text begins with `--` and does not
contain `---@class`, `loadDefinitions` emits no record for that line unless the line
reaches the function branch (it is no `---@meta` line, no documentation comment, and
holds the function pattern); a record emitted for such a line is a Function record,
never a Class or Variable record. -/
theorem loadDefinitions_comment_line (fs : FileSystem) (path text : Str) (A B : List Str)
    (raw : Str) (hfile : fs path = some (.file text)) (hlines : linesOf text = A ++ raw :: B)
    (hcm : startsWith (trim raw) commentMarker = true)
    (hnc : includes (trim raw) classMarker = false) :
    ((scanLine (docAfter [] A) raw).1 = none ↔ isFunctionLine raw = false) ∧
    (isFunctionLine raw = false →
      loadDefinitions fs path =
        .ok (scanFrom [] A ++ scanFrom (scanLine (docAfter [] A) raw).2 B)) ∧
    (∀ item, (scanLine (docAfter [] A) raw).1 = some item → item.kind = .Function) := by
  obtain ⟨hiff, hkind⟩ := scanLine_comment_line (docAfter [] A) raw hcm hnc
  refine ⟨hiff, fun hf => ?_, hkind⟩
  rw [load_at_line fs path text A B raw hfile hlines, hiff.2 hf]
  rfl

theorem loadDefinitions_comment_line_witness :
    loadDefinitions
        (fsOfList [("api.d.lua".toList, "x = 1\n---@param a number\nfunction f(a)".toList)])
        "api.d.lua".toList =
      .ok (scanFrom [] ["x = 1".toList] ++
        scanFrom (scanLine (docAfter [] ["x = 1".toList]) "---@param a number".toList).2
          ["function f(a)".toList]) :=
  (loadDefinitions_comment_line
    (fsOfList [("api.d.lua".toList, "x = 1\n---@param a number\nfunction f(a)".toList)])
    "api.d.lua".toList "x = 1\n---@param a number\nfunction f(a)".toList ["x = 1".toList]
    ["function f(a)".toList] "---@param a number".toList (by decide) (by decide) (by decide)
    (by decide)).2.1 (by decide)

theorem splitAux_ne_nil (sep s : Str) (k : Nat) : splitAux sep s k ≠ [] := by
  induction s generalizing k with
  | nil => simp [splitAux]
  | cons c cs ih =>
    cases k with
    | succ k => rw [splitAux]; exact ih k
    | zero =>
      rw [splitAux]
      split
      · simp
      · exact consHead_ne_nil _ _

/-- A text that contains the separator splits into at least two pieces. -/
theorem split_get_one (h : Char) (t s : Str) (hinc : includes s (h :: t) = true) :
    ∃ x, (split s (h :: t)).get? 1 = some x := by
  unfold split
  induction s with
  | nil => simp [includes, startsWith_nil_cons] at hinc
  | cons c cs ih =>
    rw [splitAux]
    by_cases hs : startsWith (c :: cs) (h :: t) = true
    · rw [if_pos hs]
      cases hL : splitAux (h :: t) cs ((h :: t).length - 1) with
      | nil => exact absurd hL (splitAux_ne_nil _ _ _)
      | cons x rest => exact ⟨x, rfl⟩
    · rw [if_neg hs]
      have hinc2 : includes cs (h :: t) = true := by
        simp only [includes, Bool.or_eq_true] at hinc
        rcases hinc with hinc | hinc
        · exact absurd hinc hs
        · exact hinc
      obtain ⟨x, hx⟩ := ih hinc2
      cases hL : splitAux (h :: t) cs 0 with
      | nil => exact absurd hL (splitAux_ne_nil _ _ _)
      | cons p rest =>
        rw [hL] at hx
        exact ⟨x, hx⟩

/-- C13. For the text of an existing file the scan completes and `loadDefinitions`
returns a record sequence: on a line that reaches the class branch piece 1 of the
split on `---@class` exists, on a line that reaches the function branch capture
group 1 exists, and a class line with an empty class name adds no record while the
scan goes on with the lines after it. -/
theorem loadDefinitions_total (fs : FileSystem) (path text : Str)
    (hfile : fs path = some (.file text)) :
    loadDefinitions fs path = .ok (scanFrom [] (linesOf text)) ∧
    (∀ raw, isClassLine raw = true →
      ∃ s, (split (trim raw) classMarker).get? 1 = some s) ∧
    (∀ raw, isFunctionLine raw = true →
      ∃ fullName, funcMatch (trim raw) = some fullName ∧ fullName ≠ []) ∧
    (∀ A raw B, linesOf text = A ++ raw :: B → isClassLine raw = true →
      classNameOf (trim raw) = some [] →
      loadDefinitions fs path = .ok (scanFrom [] A ++ scanFrom (docAfter [] A) B)) := by
  refine ⟨load_file fs path text hfile, ?_, ?_, ?_⟩
  · intro raw hk
    rw [classMarker_cons]
    exact split_get_one _ _ _ (by rw [← classMarker_cons]; exact (isClassLine_other raw hk).2.2)
  · intro raw hf
    obtain ⟨fullName, hm, _⟩ := scanLine_function [] raw hf
    exact ⟨fullName, hm, (funcMatch_mem hm).1⟩
  · intro A raw B hlines hk hcls
    obtain ⟨ho, hf, hi⟩ := isClassLine_other raw hk
    obtain ⟨hr, hd, _⟩ := isOtherLine_not raw ho
    rw [load_at_line fs path text A B raw hfile hlines,
      scanLine_other _ raw hr hd hf, if_pos hi, hcls]
    rfl

theorem loadDefinitions_total_witness :
    loadDefinitions (fsOfList [("api.d.lua".toList, "x = 1\n---@class\ny = 2".toList)])
        "api.d.lua".toList =
      .ok [ { name := "x".toList, kind := .Variable, detail := globalDetail,
              documentation := none },
            { name := "y".toList, kind := .Variable, detail := globalDetail,
              documentation := none } ] :=
  (loadDefinitions_total (fsOfList [("api.d.lua".toList, "x = 1\n---@class\ny = 2".toList)])
    "api.d.lua".toList "x = 1\n---@class\ny = 2".toList (by decide)).2.2.2
    ["x = 1".toList] "---@class".toList ["y = 2".toList] (by decide) (by decide) (by decide)

/-! ## Hover lookup -/

theorem findByName_eq_some (cs : List Item) (w : Str) (r : Item) :
    findByName cs w = some r ↔
      ∃ pre post, cs = pre ++ r :: post ∧ r.name = w ∧ ∀ x ∈ pre, x.name ≠ w := by
  unfold findByName
  rw [List.find?_eq_some]
  constructor
  · rintro ⟨hr, pre, post, hcs, hpre⟩
    exact ⟨pre, post, hcs, by simpa using hr, fun x hx => by simpa using hpre x hx⟩
  · rintro ⟨pre, post, hcs, hr, hpre⟩
    exact ⟨by simpa using hr, pre, post, hcs, fun x hx => by simpa using hpre x hx⟩

theorem findByName_eq_none (cs : List Item) (w : Str) :
    findByName cs w = none ↔ ∀ x ∈ cs, x.name ≠ w := by
  unfold findByName
  rw [List.find?_eq_none]
  constructor
  · intro h x hx; simpa using h x hx
  · intro h x hx; simpa using h x hx

theorem findByName_append_of_mem (first second : List Item) (w : Str) (r : Item)
    (hr : r ∈ first) (hw : r.name = w) :
    findByName (first ++ second) w = findByName first w ∧
      (findByName first w).isSome = true := by
  have hsome : (findByName first w).isSome = true := by
    cases hf : findByName first w with
    | some x => rfl
    | none => exact absurd hw ((findByName_eq_none first w).1 hf r hr)
  refine ⟨?_, hsome⟩
  unfold findByName at hsome ⊢
  rw [List.find?_append]
  cases hf : List.find? (fun c => c.name == w) first with
  | some x => rfl
  | none => rw [hf] at hsome; cases hsome

/-- C14. For every collection and every word the hover lookup returns the record of
lowest index whose name is the word, by exact equality of the whole strings, and
returns nothing exactly when no record has that name; so a name defined in both
declaration files is answered with the record of the first file. -/
theorem provideHover_first_match :
    (∀ (cs : List Item) (w : Str) (r : Item), findByName cs w = some r ↔
      ∃ pre post, cs = pre ++ r :: post ∧ r.name = w ∧ ∀ x ∈ pre, x.name ≠ w) ∧
    (∀ (cs : List Item) (w : Str), findByName cs w = none ↔ ∀ x ∈ cs, x.name ≠ w) ∧
    (∀ (cs : List Item) (w : Str),
      provideHover cs (some w) = (findByName cs w).map hoverMarkdown) ∧
    (∀ (cs : List Item) (w : Str),
      provideHover cs (some w) = none ↔ ∀ x ∈ cs, x.name ≠ w) ∧
    (∀ (first second : List Item) (w : Str) (r : Item), r ∈ first → r.name = w →
      findByName (first ++ second) w = findByName first w ∧
        (findByName first w).isSome = true) := by
  have hmap : ∀ (cs : List Item) (w : Str),
      provideHover cs (some w) = (findByName cs w).map hoverMarkdown := by
    intro cs w
    show (match findByName cs w with
      | none => none
      | some found => some (hoverMarkdown found)) = (findByName cs w).map hoverMarkdown
    cases findByName cs w <;> rfl
  refine ⟨findByName_eq_some, findByName_eq_none, hmap, ?_, findByName_append_of_mem⟩
  intro cs w
  rw [hmap, ← findByName_eq_none]
  cases findByName cs w <;> simp

theorem provideHover_first_match_witness :
    findByName
        ([ { name := "f".toList, kind := .Function, detail := "Potassium API: a.f".toList,
             documentation := some "one".toList } ] ++
         [ { name := "f".toList, kind := .Function, detail := "Potassium API: b.f".toList,
             documentation := some "two".toList } ]) "f".toList =
      findByName
        [ { name := "f".toList, kind := .Function, detail := "Potassium API: a.f".toList,
            documentation := some "one".toList } ] "f".toList ∧
      (findByName
        [ { name := "f".toList, kind := .Function, detail := "Potassium API: a.f".toList,
            documentation := some "one".toList } ] "f".toList).isSome = true :=
  provideHover_first_match.2.2.2.2 _ _ "f".toList
    { name := "f".toList, kind := .Function, detail := "Potassium API: a.f".toList,
      documentation := some "one".toList } (List.mem_singleton_self _) rfl

/-! ## The scan as a left fold -/

theorem foldl_scanStep (lines : List Str) (acc : List Item) (d : Str) :
    lines.foldl scanStep (acc, d) = (acc ++ scanFrom d lines, docAfter d lines) := by
  induction lines generalizing acc d with
  | nil => simp [scanFrom, docAfter]
  | cons raw rest ih =>
    rw [List.foldl_cons, scanStep, ih, scanFrom_cons, docAfter]
    simp

theorem scanFrom_length_le (lines : List Str) (d : Str) :
    (scanFrom d lines).length ≤ lines.length := by
  induction lines generalizing d with
  | nil => simp [scanFrom]
  | cons raw rest ih =>
    rw [scanFrom_cons, List.length_append, List.length_cons]
    have := ih (scanLine d raw).2
    have h1 : (scanLine d raw).1.toList.length ≤ 1 := by
      cases (scanLine d raw).1 <;> simp
    omega

/-- C18. The scan of `loadDefinitions` is a left fold over the lines in which a line
adds at most one record, after the records of the lines before it: the records of `A`
followed by `B` are the records of `A` followed by the records of `B` scanned from the
pending documentation left by `A`; so the records of `A` are a prefix of them, there
are never more records than lines, and when `A` ends with a blank line the result is
the records of `A` followed by the records of `B`. -/
theorem scan_left_fold :
    (∀ lines : List Str, scanFold lines = (scanFrom [] lines, docAfter [] lines)) ∧
    (∀ (d raw : Str), (scanFrom d [raw]).length ≤ 1) ∧
    (∀ A B : List Str,
      scanFrom [] (A ++ B) = scanFrom [] A ++ scanFrom (docAfter [] A) B) ∧
    (∀ A B : List Str, ∃ rest, scanFrom [] (A ++ B) = scanFrom [] A ++ rest) ∧
    (∀ lines : List Str, (scanFrom [] lines).length ≤ lines.length) ∧
    (∀ (A B : List Str) (b : Str), trim b = [] →
      scanFrom [] ((A ++ [b]) ++ B) = scanFrom [] (A ++ [b]) ++ scanFrom [] B) ∧
    (∀ (fs : FileSystem) (path text : Str) (A B : List Str),
      fs path = some (.file text) → linesOf text = A ++ B →
      loadDefinitions fs path = .ok (scanFrom [] A ++ scanFrom (docAfter [] A) B)) := by
  refine ⟨?_, ?_, ?_, ?_, ?_, ?_, ?_⟩
  · intro lines
    rw [scanFold, foldl_scanStep]
    rfl
  · intro d raw
    exact scanFrom_length_le [raw] d
  · intro A B
    exact scanFrom_append [] A B
  · intro A B
    exact ⟨_, scanFrom_append [] A B⟩
  · intro lines
    exact scanFrom_length_le lines []
  · intro A B b hb
    rw [scanFrom_append [] (A ++ [b]) B, docAfter_concat,
      scanLine_snd_reset _ b (by simp [isResetLine, hb])]
  · intro fs path text A B hfile hlines
    rw [load_file fs path text hfile, hlines, scanFrom_append]

theorem scan_left_fold_witness :
    loadDefinitions (fsOfList [("api.d.lua".toList, "--- d\n\nfunction f()".toList)])
        "api.d.lua".toList =
      .ok (scanFrom [] ["--- d".toList, []] ++
        scanFrom (docAfter [] ["--- d".toList, []]) ["function f()".toList]) ∧
    scanFrom [] ((["--- d".toList] ++ [[]]) ++ ["function f()".toList]) =
      scanFrom [] (["--- d".toList] ++ [[]]) ++ scanFrom [] ["function f()".toList] :=
  ⟨scan_left_fold.2.2.2.2.2.2 _ "api.d.lua".toList "--- d\n\nfunction f()".toList
      ["--- d".toList, []] ["function f()".toList] (by decide) (by decide),
   scan_left_fold.2.2.2.2.2.1 ["--- d".toList] ["function f()".toList] [] (by decide)⟩

/-! ## White space around the lines -/

theorem trimStart_allWs (w : Str) (hw : ∀ c ∈ w, isWs c = true) : trimStart w = [] := by
  induction w with
  | nil => rfl
  | cons c w ih =>
    rw [trimStart_cons_ws _ (hw c (List.mem_cons_self _ _))]
    exact ih (fun x hx => hw x (List.mem_cons_of_mem _ hx))

theorem trim_ws_append (w s : Str) (hw : ∀ c ∈ w, isWs c = true) : trim (w ++ s) = trim s := by
  induction w with
  | nil => rfl
  | cons c w ih =>
    unfold trim at ih ⊢
    rw [List.cons_append, trimStart_cons_ws _ (hw c (List.mem_cons_self _ _))]
    exact ih (fun x hx => hw x (List.mem_cons_of_mem _ hx))

theorem trim_append_ws (s w : Str) (hw : ∀ c ∈ w, isWs c = true) : trim (s ++ w) = trim s := by
  induction s with
  | nil =>
    unfold trim
    rw [List.nil_append, trimStart_allWs w hw]
    rfl
  | cons c s ih =>
    unfold trim at ih ⊢
    by_cases hc : isWs c = true
    · rw [List.cons_append, trimStart_cons_ws _ hc, trimStart_cons_ws _ hc]
      exact ih
    · have hc2 : isWs c = false := by simpa using hc
      rw [List.cons_append, trimStart_cons_nonws _ hc2, trimStart_cons_nonws _ hc2,
        ← List.cons_append, trimEnd_append_ws _ _ hw]

theorem trim_eq_of_padding (a b : Str) (h : isPaddingOf a b) : trim a = trim b := by
  obtain ⟨w1, w2, h1, h2, rfl⟩ := h
  rw [trim_ws_append _ _ h1, trim_append_ws _ _ h2]

/-- The loop body looks at the trimmed line only. -/
theorem scanLine_congr (d a b : Str) (h : trim a = trim b) : scanLine d a = scanLine d b := by
  simp only [scanLine, h]

theorem scanFrom_congr (d : Str) (L1 L2 : List Str)
    (h : List.Forall₂ (fun a b => trim a = trim b) L1 L2) : scanFrom d L1 = scanFrom d L2 := by
  induction h generalizing d with
  | nil => rfl
  | cons hab _ ih => rw [scanFrom_cons, scanFrom_cons, scanLine_congr d _ _ hab, ih]

theorem splitAux_single (n c : Char) (cs : Str) :
    splitAux [n] (c :: cs) 0 =
      if c = n then [] :: splitAux [n] cs 0 else consHead c (splitAux [n] cs 0) := by
  rw [splitAux, startsWith_cons_cons, startsWith_nil]
  by_cases h : c = n
  · simp [h]
  · have : (n == c) = false := by
      rw [beq_eq_false_iff_ne]
      exact fun e => h e.symm
    simp [h, this]

theorem forall₂_consHead (R : Str → Str → Prop) (c : Char)
    (hR : ∀ a b, R a b → R (c :: a) (c :: b)) (hc : R [c] [c]) (L1 L2 : List Str)
    (h : List.Forall₂ R L1 L2) : List.Forall₂ R (consHead c L1) (consHead c L2) := by
  cases h with
  | nil => exact List.Forall₂.cons hc List.Forall₂.nil
  | cons hab hrest => exact List.Forall₂.cons (hR _ _ hab) hrest

/-- The lines of a text with carriage return and line feed are the lines of the text
with line feeds, each with white space added behind. -/
theorem linesOf_toCRLF (s : Str) :
    List.Forall₂ (fun a b => ∃ w : Str, (∀ c ∈ w, isWs c = true) ∧ a = b ++ w)
      (linesOf (toCRLF s)) (linesOf s) := by
  unfold linesOf split
  induction s with
  | nil =>
    show List.Forall₂ _ [[]] [[]]
    refine List.Forall₂.cons ⟨[], ?_, rfl⟩ List.Forall₂.nil
    intro c hc
    exact absurd hc (List.not_mem_nil c)
  | cons c cs ih =>
    by_cases hc : c = '\n'
    · subst hc
      have h1 : toCRLF ('\n' :: cs) = '\r' :: '\n' :: toCRLF cs := by simp [toCRLF]
      rw [h1, splitAux_single, if_neg (by decide), splitAux_single, if_pos rfl,
        splitAux_single, if_pos rfl]
      exact List.Forall₂.cons ⟨['\r'], by decide, rfl⟩ ih
    · have h1 : toCRLF (c :: cs) = c :: toCRLF cs := by simp [toCRLF, hc]
      rw [h1, splitAux_single, if_neg hc, splitAux_single, if_neg hc]
      refine forall₂_consHead _ c ?_ ⟨[], ?_, rfl⟩ _ _ ih
      · rintro a b ⟨w, hw, rfl⟩
        exact ⟨w, hw, rfl⟩
      · intro x hx
        exact absurd hx (List.not_mem_nil x)

/-- C19. Adding or removing white space other than line feeds in front of or behind
any line of a file leaves the record sequence of `loadDefinitions` as it is; so a file
with carriage return and line feed at the line ends gives the same records as the same
file with line feeds. -/
theorem loadDefinitions_padding_invariant (fs1 fs2 : FileSystem)
    (path1 path2 text1 text2 : Str) (h1 : fs1 path1 = some (.file text1))
    (h2 : fs2 path2 = some (.file text2)) :
    (List.Forall₂ (fun a b => isPaddingOf a b ∨ isPaddingOf b a)
        (linesOf text1) (linesOf text2) →
      loadDefinitions fs1 path1 = loadDefinitions fs2 path2) ∧
    (text1 = toCRLF text2 → loadDefinitions fs1 path1 = loadDefinitions fs2 path2) := by
  rw [load_file fs1 path1 text1 h1, load_file fs2 path2 text2 h2]
  constructor
  · intro h
    refine congrArg Except.ok (scanFrom_congr [] _ _ (h.imp ?_))
    rintro a b (hab | hba)
    · exact trim_eq_of_padding a b hab
    · exact (trim_eq_of_padding b a hba).symm
  · intro h
    subst h
    refine congrArg Except.ok (scanFrom_congr [] _ _ ((linesOf_toCRLF text2).imp ?_))
    rintro a b ⟨w, hw, rfl⟩
    exact trim_append_ws b w hw

theorem loadDefinitions_padding_invariant_witness :
    loadDefinitions (fsOfList [("a.lua".toList, "--- Doc \r\n\tfunction f()\r\nx = 1".toList)])
        "a.lua".toList =
      loadDefinitions (fsOfList [("b.lua".toList, "--- Doc\nfunction f()\nx = 1".toList)])
        "b.lua".toList ∧
    loadDefinitions (fsOfList [("a.lua".toList, toCRLF "--- Doc\nfunction f()\nx = 1".toList)])
        "a.lua".toList =
      loadDefinitions (fsOfList [("b.lua".toList, "--- Doc\nfunction f()\nx = 1".toList)])
        "b.lua".toList :=
  ⟨(loadDefinitions_padding_invariant
      (fsOfList [("a.lua".toList, "--- Doc \r\n\tfunction f()\r\nx = 1".toList)])
      (fsOfList [("b.lua".toList, "--- Doc\nfunction f()\nx = 1".toList)])
      "a.lua".toList "b.lua".toList "--- Doc \r\n\tfunction f()\r\nx = 1".toList
      "--- Doc\nfunction f()\nx = 1".toList (by decide) (by decide)).1
      (List.Forall₂.cons (Or.inl ⟨[], " \r".toList, by decide, by decide, rfl⟩)
        (List.Forall₂.cons (Or.inl ⟨"\t".toList, "\r".toList, by decide, by decide, rfl⟩)
          (List.Forall₂.cons (Or.inl ⟨[], [], by decide, by decide, rfl⟩) List.Forall₂.nil))),
   (loadDefinitions_padding_invariant
      (fsOfList [("a.lua".toList, toCRLF "--- Doc\nfunction f()\nx = 1".toList)])
      (fsOfList [("b.lua".toList, "--- Doc\nfunction f()\nx = 1".toList)])
      "a.lua".toList "b.lua".toList (toCRLF "--- Doc\nfunction f()\nx = 1".toList)
      "--- Doc\nfunction f()\nx = 1".toList (by decide) (by decide)).2 rfl⟩

/-! ## Reloading the collection -/

theorem linesOf_append_lf (l rest : Str) (h : '\n' ∉ l) :
    linesOf (l ++ '\n' :: rest) = l :: linesOf rest := by
  unfold linesOf split
  induction l with
  | nil => rw [List.nil_append, splitAux_single, if_pos rfl]
  | cons c l ih =>
    have hc : c ≠ '\n' := fun e => h (by rw [e]; exact List.mem_cons_self _ _)
    rw [List.cons_append, splitAux_single, if_neg hc,
      ih (fun hm => h (List.mem_cons_of_mem _ hm))]
    rfl

theorem linesOf_flatten_replicate (n : Nat) (l : Str) (h : '\n' ∉ l) :
    linesOf (List.replicate n (l ++ ['\n'])).flatten = List.replicate n l ++ [[]] := by
  induction n with
  | zero => rfl
  | succ n ih =>
    rw [List.replicate_succ, List.flatten_cons, List.append_assoc, List.singleton_append,
      linesOf_append_lf l _ h, ih, List.replicate_succ, List.cons_append]

theorem scanLine_xGlobal (d : Str) : scanLine d "x = 1".toList = (some xGlobal, d) :=
  scanLine_assignment d "x = 1".toList "x".toList "1".toList (by decide) (by decide)
    (by decide) (by decide) rfl (by decide) (by decide)

theorem scanFrom_replicate_xGlobal (n : Nat) (d : Str) (rest : List Str) :
    scanFrom d (List.replicate n "x = 1".toList ++ rest) =
      List.replicate n xGlobal ++ scanFrom d rest := by
  induction n with
  | zero => rfl
  | succ n ih =>
    rw [List.replicate_succ, List.cons_append, scanFrom_cons, scanLine_xGlobal, ih,
      List.replicate_succ]
    rfl

theorem scan_manyGlobals : scanFrom [] (linesOf manyGlobals) = List.replicate 130000 xGlobal := by
  have h : manyGlobals = (List.replicate 130000 ("x = 1".toList ++ ['\n'])).flatten := rfl
  rw [h, linesOf_flatten_replicate 130000 _ (by decide), scanFrom_replicate_xGlobal]
  have hlast : scanFrom [] [[]] = [] := rfl
  rw [hlast, List.append_nil]

theorem pushSpread_ok (maxArgs : Nat) (completions records : List Item)
    (h : records.length ≤ maxArgs) :
    pushSpread maxArgs completions records = .ok (completions ++ records) := by
  rw [pushSpread, if_pos h]

theorem pushSpread_range (maxArgs : Nat) (completions records : List Item)
    (h : maxArgs < records.length) :
    pushSpread maxArgs completions records = .error .range := by
  rw [pushSpread, if_neg (Nat.not_le.2 h)]

/-- When the first file yields more records than the engine accepts as arguments, the
first `push` raises a `RangeError` and the collection is left empty. -/
theorem reloadCompletions_range_first (maxArgs : Nat) (fs : FileSystem)
    (join : Str → Str → Str) (extPath : Str) (prior first : List Item)
    (h1 : loadDefinitions fs (join extPath apiFile) = .ok first)
    (hfirst : maxArgs < first.length) :
    reloadCompletions maxArgs fs join extPath prior = ([], some .range) := by
  unfold reloadCompletions
  simp only [h1, pushSpread_range _ _ _ hfirst, List.take_zero]

theorem load_manyGlobals (path : Str) :
    loadDefinitions (fun _ => some (.file manyGlobals)) path =
      .ok (List.replicate 130000 xGlobal) := by
  rw [load_file _ path manyGlobals rfl, scan_manyGlobals]

/-- C7 (as stated, refuted). With an engine that accepts 125000 arguments in a call
and a declaration file of 130000 lines `x = 1`, the file yields 130000 records, the
call `completions.push(...)` raises a `RangeError`, and the collection is left empty
instead of holding the records of the two files. -/
theorem reloadCompletions_spread_counterexample :
    loadDefinitions (fun _ => some (.file manyGlobals)) (joinSlash "ext".toList apiFile) =
        .ok (List.replicate 130000 xGlobal) ∧
      (List.replicate 130000 xGlobal).length = 130000 ∧
      reloadCompletions 125000 (fun _ => some (.file manyGlobals)) joinSlash "ext".toList
        [ { name := "old".toList, kind := .Class, detail := [], documentation := none } ] =
        ([], some .range) :=
  ⟨load_manyGlobals _, List.length_replicate _ _,
    reloadCompletions_range_first 125000 _ joinSlash _ _ _ (load_manyGlobals _)
      (by rw [List.length_replicate]; decide)⟩

/-- C7 (amended). Whatever the collection held before, when each of the two extracted
sequences holds no more records than the engine accepts as arguments of one call,
`reloadCompletions` raises nothing and leaves in the collection exactly the sequence
extracted from `api.d.lua` followed by the one extracted from `globals.d.lua`: nothing
of the prior content remains, the records of the first file come before those of the
second, and none is dropped, merged or moved. -/
theorem reloadCompletions_concat (maxArgs : Nat) (fs : FileSystem)
    (join : Str → Str → Str) (extPath : Str) (prior first second : List Item)
    (h1 : loadDefinitions fs (join extPath apiFile) = .ok first)
    (h2 : loadDefinitions fs (join extPath globalsFile) = .ok second)
    (hfirst : first.length ≤ maxArgs) (hsecond : second.length ≤ maxArgs) :
    reloadCompletions maxArgs fs join extPath prior = (first ++ second, none) := by
  unfold reloadCompletions
  simp only [h1, h2, pushSpread_ok _ _ _ hfirst, pushSpread_ok _ _ _ hsecond,
    List.take_zero, List.nil_append]

theorem reloadCompletions_concat_witness :
    reloadCompletions 125000
      (fsOfList [("ext/api.d.lua".toList, "function f()\nG = 1".toList),
                 ("ext/globals.d.lua".toList, "G = 1\nfunction f()".toList)])
      joinSlash "ext".toList
      [ { name := "old".toList, kind := .Class, detail := [], documentation := none } ] =
    ([ { name := "f".toList, kind := .Function, detail := "Potassium API: f".toList,
         documentation := some [] },
       { name := "G".toList, kind := .Variable, detail := globalDetail,
         documentation := none },
       { name := "G".toList, kind := .Variable, detail := globalDetail,
         documentation := none },
       { name := "f".toList, kind := .Function, detail := "Potassium API: f".toList,
         documentation := some [] } ], none) :=
  reloadCompletions_concat 125000 _ joinSlash "ext".toList _ _ _ (by rfl) (by rfl)
    (by decide) (by decide)

end Potassium
